import Mathlib

/-!
# Crockford base 32 (`crockford.go`)

A shallow embedding of the package `crockford`: the four alphabet constants, the two
encodings `Lower` and `Upper`, `Time`, `mod`, `Checksum`, `normUpper` and
`AppendNormalized`.

`Lower` and `Upper` are values of Go's standard library type `base32.Encoding`
(`encoding/base32`, Go 1.22 and later), built by `NewEncoding(..).WithPadding(NoPadding)`.
The library functions that these two values run (`NewEncoding`, `WithPadding`, `Encode`,
`Decode`) are embedded here statement by statement.

Bytes are natural numbers below 256, byte strings are lists of them, and every machine
operation carries its width explicitly.  `AppendNormalized` is embedded twice: on byte
strings, and on slices of one memory, where `append` writes in place.
-/

namespace Crockford

/-! ## Bytes -/

/-- The byte strings: every element is below 256. -/
def IsBytes (b : List Nat) : Prop := ∀ x ∈ b, x < 256

instance (b : List Nat) : Decidable (IsBytes b) := by
  unfold IsBytes; infer_instance

/-- The bytes of a string constant. -/
def bytesOf (s : String) : List Nat := s.toList.map Char.toNat

/-! ## Alphabet tables (`crockford.go`, lines 11 to 16) -/

def LowercaseAlphabet : List Nat := bytesOf "0123456789abcdefghjkmnpqrstvwxyz"

def UppercaseAlphabet : List Nat := bytesOf "0123456789ABCDEFGHJKMNPQRSTVWXYZ"

def UppercaseChecksum : List Nat := UppercaseAlphabet ++ bytesOf "*~$=U"

def LowercaseChecksum : List Nat := LowercaseAlphabet ++ bytesOf "*~$=u"

/-! ## `encoding/base32`: the encoding value -/

/-- The rune `StdPadding`, the character `=`. -/
def StdPadding : Int := 61

/-- The rune `NoPadding`. -/
def NoPadding : Int := -1

/-- The conversion `byte(r)` of a rune: its low eight bits. -/
def runeByte (r : Int) : Nat := (r % 256).toNat

/-- The struct `base32.Encoding`: `encode [32]byte`, `decodeMap [256]uint8`,
`padChar rune`. -/
structure Encoding where
  encode : List Nat
  decodeMap : List Nat
  padChar : Int

/-- The table `decodeMapInitialize`: 256 entries, all `0xFF` (`invalidIndex`). -/
def decodeMapInit : List Nat := List.replicate 256 0xFF

/-- The function `base32.NewEncoding`: the padding is `StdPadding`, the alphabet is copied,
and `decodeMap[encoder[i]] = i` is stored for `i` from `0` upwards.  The library panics
unless `AlphabetOk encoder`. -/
def NewEncoding (encoder : List Nat) : Encoding :=
  { encode := encoder
    decodeMap := (List.range encoder.length).foldl
      (fun m i => m.set (encoder.getD i 0) i) decodeMapInit
    padChar := StdPadding }

/-- The condition under which `NewEncoding` does not panic: 32 bytes, no `\n` or `\r`,
no duplicate symbol. -/
def AlphabetOk (encoder : List Nat) : Prop :=
  encoder.length = 32 ∧ IsBytes encoder ∧ 10 ∉ encoder ∧ 13 ∉ encoder ∧ encoder.Nodup

/-- The method `WithPadding`: the same encoding with another padding rune.  The library
panics when the rune is `\r`, `\n`, above `0xff`, or a symbol of the alphabet;
`NoPadding` is none of these. -/
def WithPadding (e : Encoding) (padding : Int) : Encoding :=
  { e with padChar := padding }

/-- The variable `Lower` (`crockford.go`, line 19). -/
def Lower : Encoding := WithPadding (NewEncoding LowercaseAlphabet) NoPadding

/-- The variable `Upper` (`crockford.go`, line 20). -/
def Upper : Encoding := WithPadding (NewEncoding UppercaseAlphabet) NoPadding

/-- The symbol `enc.encode[i]`. -/
def Encoding.sym (e : Encoding) (i : Nat) : Nat := e.encode.getD i 0

/-- The table entry `enc.decodeMap[c]`. -/
def Encoding.val (e : Encoding) (c : Nat) : Nat := e.decodeMap.getD c 0xFF

/-! ## `encoding/base32`: `Encode` -/

/-- The 32 bit word `hi` of a full quantum:
`uint32(s0)<<24 | uint32(s1)<<16 | uint32(s2)<<8 | uint32(s3)`. -/
def encHi (s0 s1 s2 s3 : Nat) : Nat :=
  (s0 <<< 24) % 2 ^ 32 ||| (s1 <<< 16) % 2 ^ 32 ||| (s2 <<< 8) % 2 ^ 32 ||| s3

/-- The 32 bit word `lo` of a full quantum: `hi<<8 | uint32(s4)`. -/
def encLo (hi s4 : Nat) : Nat := (hi <<< 8) % 2 ^ 32 ||| s4

/-- The eight symbols that the main loop of `Encode` writes for five source bytes. -/
def encodeFull (e : Encoding) (s0 s1 s2 s3 s4 : Nat) : List Nat :=
  let hi := encHi s0 s1 s2 s3
  let lo := encLo hi s4
  [ e.sym ((hi >>> 27) &&& 0x1F), e.sym ((hi >>> 22) &&& 0x1F),
    e.sym ((hi >>> 17) &&& 0x1F), e.sym ((hi >>> 12) &&& 0x1F),
    e.sym ((hi >>> 7) &&& 0x1F), e.sym ((hi >>> 2) &&& 0x1F),
    e.sym ((lo >>> 5) &&& 0x1F), e.sym (lo &&& 0x1F) ]

/-- The padding bytes of the final quantum: none for `NoPadding`, otherwise the padding
character at the positions `remain * 8 / 5 + 1` to `7`. -/
def encodePad (e : Encoding) (remain : Nat) : List Nat :=
  if e.padChar ≠ NoPadding then
    List.replicate (8 - (remain * 8 / 5 + 1)) (runeByte e.padChar)
  else []

/-- The final quantum of `Encode`: the `switch remain` with its fall-through cases
4, 3, 2, 1 (the word `val` is built from the last source byte backwards), followed by
the padding. -/
def encodeFinal (e : Encoding) : List Nat → List Nat
  | [s0] =>
    let v1 := (s0 <<< 24) % 2 ^ 32
    [e.sym ((v1 >>> 27) &&& 0x1F), e.sym ((v1 >>> 22) &&& 0x1F)] ++ encodePad e 1
  | [s0, s1] =>
    let v2 := (s1 <<< 16) % 2 ^ 32
    let v1 := v2 ||| (s0 <<< 24) % 2 ^ 32
    [e.sym ((v1 >>> 27) &&& 0x1F), e.sym ((v1 >>> 22) &&& 0x1F),
     e.sym ((v2 >>> 17) &&& 0x1F), e.sym ((v2 >>> 12) &&& 0x1F)] ++ encodePad e 2
  | [s0, s1, s2] =>
    let v3 := (s2 <<< 8) % 2 ^ 32
    let v2 := v3 ||| (s1 <<< 16) % 2 ^ 32
    let v1 := v2 ||| (s0 <<< 24) % 2 ^ 32
    [e.sym ((v1 >>> 27) &&& 0x1F), e.sym ((v1 >>> 22) &&& 0x1F),
     e.sym ((v2 >>> 17) &&& 0x1F), e.sym ((v2 >>> 12) &&& 0x1F),
     e.sym ((v3 >>> 7) &&& 0x1F)] ++ encodePad e 3
  | [s0, s1, s2, s3] =>
    let v4 := s3
    let v3 := v4 ||| (s2 <<< 8) % 2 ^ 32
    let v2 := v3 ||| (s1 <<< 16) % 2 ^ 32
    let v1 := v2 ||| (s0 <<< 24) % 2 ^ 32
    [e.sym ((v1 >>> 27) &&& 0x1F), e.sym ((v1 >>> 22) &&& 0x1F),
     e.sym ((v2 >>> 17) &&& 0x1F), e.sym ((v2 >>> 12) &&& 0x1F),
     e.sym ((v3 >>> 7) &&& 0x1F),
     e.sym ((v4 >>> 2) &&& 0x1F), e.sym (((v4 <<< 3) % 2 ^ 32) &&& 0x1F)] ++ encodePad e 4
  | _ => []

/-- The method `Encode`, as the bytes it writes to `dst[0 : EncodedLen(len(src))]`: the
loop over full quanta of five bytes, then the final quantum. -/
def Encode (e : Encoding) : List Nat → List Nat
  | s0 :: s1 :: s2 :: s3 :: s4 :: rest => encodeFull e s0 s1 s2 s3 s4 ++ Encode e rest
  | rest => encodeFinal e rest

/-! ## `encoding/base32`: `Decode` -/

deriving instance DecidableEq for Except

/-- The function `stripNewlines`: the source without its `\r` and `\n` bytes. -/
def stripNewlines (src : List Nat) : List Nat :=
  src.filter (fun b => !(b == 13 || b == 10))

/-- The `switch dlen` of `decode`, which packs the 5 bit values of one quantum into bytes:
the cases 8, 7, 5, 4, 2 fall through to one another and write 5, 4, 3, 2, 1 bytes; any
other `dlen` matches no case and writes nothing.  `dbuf` is the array `[8]byte`, whose
unwritten entries are zero. -/
def decodePack (dbuf : List Nat) (dlen : Nat) : List Nat :=
  let d := fun i => dbuf.getD i 0
  let b0 := (d 0 <<< 3) % 256 ||| d 1 >>> 2
  let b1 := (d 1 <<< 6) % 256 ||| (d 2 <<< 1) % 256 ||| d 3 >>> 4
  let b2 := (d 3 <<< 4) % 256 ||| d 4 >>> 1
  let b3 := (d 4 <<< 7) % 256 ||| (d 5 <<< 2) % 256 ||| d 6 >>> 3
  let b4 := (d 6 <<< 5) % 256 ||| d 7
  if dlen = 8 then [b0, b1, b2, b3, b4]
  else if dlen = 7 then [b0, b1, b2, b3]
  else if dlen = 5 then [b0, b1, b2]
  else if dlen = 4 then [b0, b1]
  else if dlen = 2 then [b0]
  else []

/-- The method `decode` (the two nested loops, run one source byte at a time).  `olen` is
the length of the whole source, `dbuf` holds the `j = dbuf.length` values read so far in
the current quantum, `dst` the bytes written so far.  The result is `dst[:n]`, or the
offset of the `CorruptInputError`.

* source exhausted with `j = 0`: the outer loop ends;
* source exhausted inside a quantum: an error when padding is expected, otherwise the
  quantum is packed with `dlen = j`;
* the byte equals `byte(enc.padChar)`, `j >= 2` and fewer than 8 bytes follow: the
  padding branch, which checks the next `8-1-j` bytes and the value of `dlen`, packs the
  quantum and ends the decoding;
* otherwise the byte is looked up in `decodeMap`; `0xFF` is an error; the eighth value
  completes a quantum of five bytes. -/
def decodeLoop (e : Encoding) (olen : Nat) :
    List Nat → List Nat → List Nat → Except Nat (List Nat)
  | [], dbuf, dst =>
    if dbuf.length = 0 then .ok dst
    else if e.padChar ≠ NoPadding then .error (olen - dbuf.length)
    else .ok (dst ++ decodePack dbuf dbuf.length)
  | c :: src, dbuf, dst =>
    let j := dbuf.length
    if c = runeByte e.padChar ∧ 2 ≤ j ∧ src.length < 8 then
      if src.length + j < 8 - 1 then .error olen
      else
        match (List.range (8 - 1 - j)).find?
            (fun k => decide (k < src.length) && (src.getD k 0 != runeByte e.padChar)) with
        | some k => .error (olen - src.length + k - 1)
        | none =>
          if j = 1 ∨ j = 3 ∨ j = 6 then .error (olen - src.length - 1)
          else .ok (dst ++ decodePack dbuf j)
    else
      let v := e.val c
      if v = 0xFF then .error (olen - src.length - 1)
      else if j + 1 = 8 then decodeLoop e olen src [] (dst ++ decodePack (dbuf ++ [v]) 8)
      else decodeLoop e olen src (dbuf ++ [v]) dst

/-- The method `Decode`: newlines are stripped, then `decode` runs on what is left. -/
def Decode (e : Encoding) (src : List Nat) : Except Nat (List Nat) :=
  let buf := stripNewlines src
  decodeLoop e buf.length buf [] []

/-! ## `Time` (`crockford.go`, lines 23 to 38) -/

/-- The conversion `byte(x)` of an `int64`: its low eight bits. -/
def byteOfInt (x : Int) : Nat := (x % 256).toNat

/-- The slice `dst[:]` after a call that wrote `out` to its first bytes. -/
def writeTo (dst out : List Nat) : List Nat := out ++ dst.drop out.length

/-- The function `Time`, on the value `ut = t.Unix()`: the five bytes
`byte(ut >> 32)`, ..., `byte(ut)` are encoded into the zeroed array `dst [8]byte`.
The shift of a signed integer is arithmetic. -/
def Time (e : Encoding) (ut : Int) : List Nat :=
  let src := [byteOfInt (ut >>> (32 : Nat)), byteOfInt (ut >>> (24 : Nat)),
    byteOfInt (ut >>> (16 : Nat)), byteOfInt (ut >>> (8 : Nat)), byteOfInt ut]
  let dst := List.replicate 8 0
  writeTo dst (Encode e src)

/-- Byte-wise lexicographic order on byte strings (`bytes.Compare(a, b) < 0`); a proper
initial segment is smaller. -/
def bytesLess : List Nat → List Nat → Bool
  | [], [] => false
  | [], _ :: _ => true
  | _ :: _, [] => false
  | a :: as, b :: bs => decide (a < b) || (a == b && bytesLess as bs)

/-! ## `mod` and `Checksum` (`crockford.go`, lines 40 to 55) -/

/-- The function `mod`: `rem = (rem*1<<8 + int(c)) % m` for each byte, from `rem = 0`.
In Go `*` and `<<` have the same precedence and associate to the left. -/
def mod (b : List Nat) (m : Nat) : Nat :=
  b.foldl (fun rem c => (((rem * 1) <<< 8) + c) % m) 0

/-- The function `Checksum`. -/
def Checksum (body : List Nat) (uppercase : Bool) : Nat :=
  let alphabet := if uppercase then UppercaseChecksum else LowercaseChecksum
  alphabet.getD (mod body 37) 0

/-! ## `normUpper` and `AppendNormalized` (`crockford.go`, lines 57 to 84) -/

/-- The function `normUpper`: the four cases of the `switch`, then `return 0`. -/
def normUpper (c : Nat) : Nat :=
  if c ∈ bytesOf "0Oo" then 48
  else if c ∈ bytesOf "1Ii" then 49
  else if c ∈ bytesOf "23456789ABCDEFGHJKMNPQRSTVWXYZ*~$=U" then c
  else if c ∈ bytesOf "abcdefghjkmnpqrstvwxyzu" then (c + 65 + 256 - 97) % 256
  else 0

/-- The function `AppendNormalized` on the bytes of its two slices, for the calls in
which no byte written into the spare capacity of `dst` is a byte of `src` still to be
read: a `dst` that is `nil` or full, or arrays that do not overlap.  The function on
slices that share memory is `AppendNormalizedMem` below, and `AppendNormalizedMem_eq` is
the condition under which the two agree. -/
def AppendNormalized (dst src : List Nat) : List Nat :=
  src.foldl (fun dst c => if normUpper c ≠ 0 then dst ++ [normUpper c] else dst) dst

/-! ## `AppendNormalized` on slices that share memory

Memory is a map from addresses to bytes; a slice is a window of it. `append` writes in
place while `dst` has spare capacity, so a call can overwrite bytes of `src`. -/

/-- A Go slice header: the address `off` of its first byte, its length and its
capacity. -/
structure Slice where
  off : Nat
  len : Nat
  cap : Nat

/-- The `n` bytes of the memory `mem` from the address `off` on. -/
def readBytes (mem : Nat → Nat) (off n : Nat) : List Nat :=
  (List.range n).map (fun k => mem (off + k))

/-- The bytes of a slice. -/
def Slice.bytes (s : Slice) (mem : Nat → Nat) : List Nat := readBytes mem s.off s.len

/-- The variable `dst` during the loop: a slice of the caller's array, or a slice of an
array that `make` or `append` allocated, which no other slice shares. -/
inductive Buf where
  | shared (s : Slice)
  | fresh (bytes : List Nat)

/-- The bytes of `dst`. -/
def Buf.bytes : Buf → (Nat → Nat) → List Nat
  | .shared s, mem => s.bytes mem
  | .fresh bs, _ => bs

/-- The builtin `append(dst, r)`: with spare capacity the byte is written in place, after
the last byte of `dst`; without, the bytes move to a new array. -/
def appendByte (mem : Nat → Nat) (d : Buf) (r : Nat) : (Nat → Nat) × Buf :=
  match d with
  | .shared s =>
    if s.len < s.cap then
      (Function.update mem (s.off + s.len) r, .shared { s with len := s.len + 1 })
    else (mem, .fresh (s.bytes mem ++ [r]))
  | .fresh bs => (mem, .fresh (bs ++ [r]))

/-- The loop `for _, c := range src` of `AppendNormalized` from the index `i`, with `n`
iterations left: each byte of `src` is read from memory when its turn comes. -/
def normLoop (soff : Nat) : Nat → Nat → (Nat → Nat) → Buf → (Nat → Nat) × Buf
  | 0, _, mem, d => (mem, d)
  | n + 1, i, mem, d =>
    let r := normUpper (mem (soff + i))
    if r ≠ 0 then normLoop soff n (i + 1) (appendByte mem d r).1 (appendByte mem d r).2
    else normLoop soff n (i + 1) mem d

/-- The function `AppendNormalized` on two slices of one memory: the bytes of the
returned slice, and the memory after the call.  A `dst` of capacity 0 is replaced by
`make([]byte, 0, len(src))`. -/
def AppendNormalizedMem (mem : Nat → Nat) (dst src : Slice) : List Nat × (Nat → Nat) :=
  let d0 := if dst.cap = 0 then Buf.fresh [] else Buf.shared dst
  let out := normLoop src.off src.len 0 mem d0
  (out.2.bytes out.1, out.1)

/-- The memory that holds the bytes `l` from the address 0 on. -/
def memOf (l : List Nat) : Nat → Nat := fun a => l.getD a 0

/-- The next byte that `append` writes in place does not lie after the address `lo` and
before the address `hi`. -/
def Buf.clear : Buf → Nat → Nat → Prop
  | .fresh _, _, _ => True
  | .shared s, lo, hi => s.off + s.len ≤ lo ∨ hi ≤ s.off + s.len

/-! ## Reference definitions: the bit stream -/

/-- Bit `j` of the stream made of the `w` bit words `xs`, most significant bit first;
bits past the end of the stream are zero. -/
def streamBit (w : Nat) (xs : List Nat) (j : Nat) : Nat :=
  (xs.getD (j / w) 0 >>> (w - 1 - j % w)) % 2

/-- The number whose `k` binary digits are the bits `k*i`, ..., `k*i + k - 1` of the
stream, the first one being the most significant. -/
def streamGroup (w k : Nat) (xs : List Nat) (i : Nat) : Nat :=
  (List.range k).foldl (fun acc t => 2 * acc + streamBit w xs (k * i + t)) 0

/-- The encoding as the specification words it: one symbol for each group of five bits
of the byte stream, `ceil(8*len/5)` of them, the missing bits of the last group being
zero. -/
def encodeSpec (alphabet : List Nat) (b : List Nat) : List Nat :=
  (List.range ((8 * b.length + 4) / 5)).map
    (fun i => alphabet.getD (streamGroup 8 5 b i) 0)

/-- The 5 bit value of a symbol as the specification words it: its position in the
alphabet. -/
def symbolValue (alphabet : List Nat) (c : Nat) : Nat := alphabet.indexOf c

/-- The decoding as the specification words it: the first `floor(5*len/8)` full bytes of
the stream of the 5 bit values `vals`. -/
def decodeSpec (vals : List Nat) : List Nat :=
  (List.range (5 * vals.length / 8)).map (fun i => streamGroup 5 8 vals i)

/-- The bits of the stream of 5 bit values `vals` that lie beyond its last full byte: the
last `5*len mod 8` bits. -/
def trailingBits (vals : List Nat) : List Nat :=
  (List.range (5 * vals.length % 8)).map
    (fun t => streamBit 5 vals (8 * (5 * vals.length / 8) + t))

/-- The low 40 bits of a signed integer as five bytes, most significant byte first:
the bits 39 to 32, 31 to 24, 23 to 16, 15 to 8, 7 to 0 of its two's complement form. -/
def low40BigEndian (ut : Int) : List Nat :=
  let n := (ut % 2 ^ 40).toNat
  [n / 2 ^ 32, n / 2 ^ 24 % 256, n / 2 ^ 16 % 256, n / 2 ^ 8 % 256, n % 256]

/-! ## Reference definitions: checksum and normalisation -/

/-- The non-negative integer whose big-endian base 256 digits are the bytes of `b`; zero
for the empty string. -/
def bigEndian (b : List Nat) : Nat := b.foldl (fun n c => n * 256 + c) 0

/-- The value `rem*1<<8 + int(c)` that one step of `mod` computes before `% m`. -/
def modWide (rem c : Nat) : Nat := (rem * 1) <<< 8 + c

/-- The upper case form of a byte: the letters `a` to `z` move to `A` to `Z`. -/
def upperCase (c : Nat) : Nat := if 97 ≤ c ∧ c ≤ 122 then c - 32 else c

/-- The table of the normalisation as the specification words it: the value kept for a
byte, or `none` for a byte that is dropped. -/
def normTable (c : Nat) : Option Nat :=
  if c ∈ bytesOf "0Oo" then some 48
  else if c ∈ bytesOf "1Ii" then some 49
  else if c ∈ bytesOf "23456789" ++ bytesOf "ABCDEFGHJKMNPQRSTVWXYZ" ++ bytesOf "*~$=U"
    then some c
  else if c ∈ bytesOf "abcdefghjkmnpqrstvwxyz" ++ bytesOf "u" then some (upperCase c)
  else none

/-! ## Auxiliary functions of the proofs -/

/-- A string followed by zeros up to the length `L`. -/
def padTo (L : Nat) (z : List Nat) : List Nat := z ++ List.replicate (L - z.length) 0

/-- The number written by a string of base 32 digits, most significant digit first. -/
def digitsValue (acc : Nat) (l : List Nat) : Nat :=
  l.foldl (fun a d => a * 32 + d) acc

/-- The 5 bit group values of a byte string, quantum by quantum, each written with the
bytes it is cut from; a last group that is not full has zero low bits. -/
def groups : List Nat → List Nat
  | s0 :: s1 :: s2 :: s3 :: s4 :: rest =>
    [s0 / 8, s0 % 8 * 4 + s1 / 64, s1 / 2 % 32, s1 % 2 * 16 + s2 / 16,
      s2 % 16 * 2 + s3 / 128, s3 / 4 % 32, s3 % 4 * 8 + s4 / 32, s4 % 32] ++ groups rest
  | [s0, s1, s2, s3] =>
    [s0 / 8, s0 % 8 * 4 + s1 / 64, s1 / 2 % 32, s1 % 2 * 16 + s2 / 16,
      s2 % 16 * 2 + s3 / 128, s3 / 4 % 32, s3 % 4 * 8]
  | [s0, s1, s2] =>
    [s0 / 8, s0 % 8 * 4 + s1 / 64, s1 / 2 % 32, s1 % 2 * 16 + s2 / 16, s2 % 16 * 2]
  | [s0, s1] => [s0 / 8, s0 % 8 * 4 + s1 / 64, s1 / 2 % 32, s1 % 2 * 16]
  | [s0] => [s0 / 8, s0 % 8 * 4]
  | [] => []

/-- The bytes that `decode` writes for a string of table values: five for each full
quantum of eight values, then the packing of what is left with `dlen` its length. -/
def packAll : List Nat → List Nat
  | d0 :: d1 :: d2 :: d3 :: d4 :: d5 :: d6 :: d7 :: rest =>
    decodePack [d0, d1, d2, d3, d4, d5, d6, d7] 8 ++ packAll rest
  | rest => decodePack rest rest.length

/-- The properties of an encoding value that the proofs about `Lower` and `Upper` use: no
padding; the decode table inverts the alphabet; every symbol of the alphabet has a table
value below 32 and is none of `0xFF`, `\n`, `\r`; every other byte has the table
value `0xFF`. -/
def Sound (e : Encoding) : Prop :=
  e.padChar = NoPadding ∧
  (∀ i, i < 32 → e.val (e.sym i) = i ∧ e.sym i ∈ e.encode) ∧
  (∀ c ∈ e.encode, e.val c < 32 ∧ c ≠ 255 ∧ c ≠ 10 ∧ c ≠ 13) ∧
  (∀ c, c < 256 → c ∉ e.encode → e.val c = 255) ∧
  e.decodeMap.length = 256

/-- The symbols of the alphabet of an encoding are in increasing order of byte value. -/
def Increasing (e : Encoding) : Prop :=
  ∀ i, i < 32 → ∀ j, j < 32 → i < j → e.sym i < e.sym j

/-! ## Arithmetic of the bit operations -/

theorem lor_eq_add (k a b : Nat) (ha : a % 2 ^ k = 0) (hb : b < 2 ^ k) : a ||| b = a + b := by
  have h : a = 2 ^ k * (a / 2 ^ k) := by
    have := Nat.div_add_mod a (2 ^ k)
    omega
  rw [h]
  exact (Nat.mul_add_lt_is_or hb _).symm

theorem lor_eq_add_low (k a b : Nat) (ha : a < 2 ^ k) (hb : b % 2 ^ k = 0) :
    a ||| b = a + b := by
  rw [Nat.lor_comm, lor_eq_add k b a hb ha, Nat.add_comm]

theorem and_mask (x : Nat) : x &&& 0x1F = x % 32 :=
  Nat.and_pow_two_sub_one_eq_mod x 5

theorem encHi_eq (s0 s1 s2 s3 : Nat) (h0 : s0 < 256) (h1 : s1 < 256) (h2 : s2 < 256)
    (h3 : s3 < 256) :
    encHi s0 s1 s2 s3 = s0 * 16777216 + s1 * 65536 + s2 * 256 + s3 := by
  unfold encHi
  simp only [Nat.shiftLeft_eq]
  rw [lor_eq_add 24 (s0 * 2 ^ 24 % 2 ^ 32) (s1 * 2 ^ 16 % 2 ^ 32) (by omega) (by omega),
    lor_eq_add 16 _ (s2 * 2 ^ 8 % 2 ^ 32) (by omega) (by omega),
    lor_eq_add 8 _ s3 (by omega) (by omega)]
  omega

theorem encLo_eq (hi s4 : Nat) (h4 : s4 < 256) :
    encLo hi s4 = hi % 16777216 * 256 + s4 := by
  unfold encLo
  simp only [Nat.shiftLeft_eq]
  rw [lor_eq_add 8 _ _ (by omega) (by omega)]
  omega

/-- The main loop of `Encode` writes the symbols of the eight groups of a quantum. -/
theorem encodeFull_eq (e : Encoding) (s0 s1 s2 s3 s4 : Nat) (h0 : s0 < 256) (h1 : s1 < 256)
    (h2 : s2 < 256) (h3 : s3 < 256) (h4 : s4 < 256) :
    encodeFull e s0 s1 s2 s3 s4 =
      [s0 / 8, s0 % 8 * 4 + s1 / 64, s1 / 2 % 32, s1 % 2 * 16 + s2 / 16,
        s2 % 16 * 2 + s3 / 128, s3 / 4 % 32, s3 % 4 * 8 + s4 / 32, s4 % 32].map e.sym := by
  simp only [encodeFull, encLo_eq _ _ h4, encHi_eq _ _ _ _ h0 h1 h2 h3, and_mask,
    Nat.shiftRight_eq_div_pow, List.map_cons, List.map_nil]
  refine congrArg₂ _ (congrArg _ ?_) (congrArg₂ _ (congrArg _ ?_) (congrArg₂ _ (congrArg _ ?_)
    (congrArg₂ _ (congrArg _ ?_) (congrArg₂ _ (congrArg _ ?_) (congrArg₂ _ (congrArg _ ?_)
    (congrArg₂ _ (congrArg _ ?_) (congrArg₂ _ (congrArg _ ?_) rfl))))))) <;> omega

theorem encodePad_none (e : Encoding) (h : e.padChar = NoPadding) (n : Nat) :
    encodePad e n = [] := by
  simp [encodePad, h]

theorem encodeFinal_one (e : Encoding) (h : e.padChar = NoPadding) (s0 : Nat)
    (h0 : s0 < 256) : encodeFinal e [s0] = (groups [s0]).map e.sym := by
  simp only [encodeFinal, groups, encodePad_none e h, and_mask, Nat.shiftLeft_eq,
    Nat.shiftRight_eq_div_pow, List.map_cons, List.map_nil, List.append_nil]
  refine congrArg₂ _ (congrArg _ ?_) (congrArg₂ _ (congrArg _ ?_) rfl) <;> omega

theorem encodeFinal_two (e : Encoding) (h : e.padChar = NoPadding) (s0 s1 : Nat)
    (h0 : s0 < 256) (h1 : s1 < 256) :
    encodeFinal e [s0, s1] = (groups [s0, s1]).map e.sym := by
  simp only [encodeFinal, groups, encodePad_none e h, and_mask, Nat.shiftLeft_eq,
    Nat.shiftRight_eq_div_pow, List.map_cons, List.map_nil, List.append_nil]
  rw [lor_eq_add_low 24 (s1 * 2 ^ 16 % 2 ^ 32) (s0 * 2 ^ 24 % 2 ^ 32) (by omega) (by omega)]
  refine congrArg₂ _ (congrArg _ ?_) (congrArg₂ _ (congrArg _ ?_) (congrArg₂ _ (congrArg _ ?_)
    (congrArg₂ _ (congrArg _ ?_) rfl))) <;> omega

theorem encodeFinal_three (e : Encoding) (h : e.padChar = NoPadding) (s0 s1 s2 : Nat)
    (h0 : s0 < 256) (h1 : s1 < 256) (h2 : s2 < 256) :
    encodeFinal e [s0, s1, s2] = (groups [s0, s1, s2]).map e.sym := by
  simp only [encodeFinal, groups, encodePad_none e h, and_mask, Nat.shiftLeft_eq,
    Nat.shiftRight_eq_div_pow, List.map_cons, List.map_nil, List.append_nil]
  rw [lor_eq_add_low 16 (s2 * 2 ^ 8 % 2 ^ 32) (s1 * 2 ^ 16 % 2 ^ 32) (by omega) (by omega),
    lor_eq_add_low 24 _ (s0 * 2 ^ 24 % 2 ^ 32) (by omega) (by omega)]
  refine congrArg₂ _ (congrArg _ ?_) (congrArg₂ _ (congrArg _ ?_) (congrArg₂ _ (congrArg _ ?_)
    (congrArg₂ _ (congrArg _ ?_) (congrArg₂ _ (congrArg _ ?_) rfl)))) <;> omega

theorem encodeFinal_four (e : Encoding) (h : e.padChar = NoPadding) (s0 s1 s2 s3 : Nat)
    (h0 : s0 < 256) (h1 : s1 < 256) (h2 : s2 < 256) (h3 : s3 < 256) :
    encodeFinal e [s0, s1, s2, s3] = (groups [s0, s1, s2, s3]).map e.sym := by
  simp only [encodeFinal, groups, encodePad_none e h, and_mask, Nat.shiftLeft_eq,
    Nat.shiftRight_eq_div_pow, List.map_cons, List.map_nil, List.append_nil]
  rw [lor_eq_add_low 8 s3 (s2 * 2 ^ 8 % 2 ^ 32) (by omega) (by omega),
    lor_eq_add_low 16 _ (s1 * 2 ^ 16 % 2 ^ 32) (by omega) (by omega),
    lor_eq_add_low 24 _ (s0 * 2 ^ 24 % 2 ^ 32) (by omega) (by omega)]
  refine congrArg₂ _ (congrArg _ ?_) (congrArg₂ _ (congrArg _ ?_) (congrArg₂ _ (congrArg _ ?_)
    (congrArg₂ _ (congrArg _ ?_) (congrArg₂ _ (congrArg _ ?_) (congrArg₂ _ (congrArg _ ?_)
    (congrArg₂ _ (congrArg _ ?_) rfl)))))) <;> omega

/-- For an encoding without padding, `Encode` writes the symbols of the groups. -/
theorem Encode_eq_groups (e : Encoding) (h : e.padChar = NoPadding) :
    ∀ b : List Nat, IsBytes b → Encode e b = (groups b).map e.sym
  | s0 :: s1 :: s2 :: s3 :: s4 :: rest, hb => by
    have hr : IsBytes rest := fun x hx => hb x (by simp [hx])
    rw [Encode, groups, List.map_append, ← Encode_eq_groups e h rest hr,
      encodeFull_eq e s0 s1 s2 s3 s4 (hb _ (by simp)) (hb _ (by simp)) (hb _ (by simp))
        (hb _ (by simp)) (hb _ (by simp))]
  | [s0, s1, s2, s3], hb => by
    rw [Encode]
    · exact encodeFinal_four e h s0 s1 s2 s3 (hb _ (by simp)) (hb _ (by simp))
        (hb _ (by simp)) (hb _ (by simp))
    · intro _ _ _ _ _ _ hc; simp at hc
  | [s0, s1, s2], hb => by
    rw [Encode]
    · exact encodeFinal_three e h s0 s1 s2 (hb _ (by simp)) (hb _ (by simp)) (hb _ (by simp))
    · intro _ _ _ _ _ _ hc; simp at hc
  | [s0, s1], hb => by
    rw [Encode]
    · exact encodeFinal_two e h s0 s1 (hb _ (by simp)) (hb _ (by simp))
    · intro _ _ _ _ _ _ hc; simp at hc
  | [s0], hb => by
    rw [Encode]
    · exact encodeFinal_one e h s0 (hb _ (by simp))
    · intro _ _ _ _ _ _ hc; simp at hc
  | [], _ => by
    rw [Encode]
    · rfl
    · intro _ _ _ _ _ _ hc; simp at hc

theorem streamGroup_five (w : Nat) (xs : List Nat) (i : Nat) :
    streamGroup w 5 xs i = 16 * streamBit w xs (5 * i) + 8 * streamBit w xs (5 * i + 1)
      + 4 * streamBit w xs (5 * i + 2) + 2 * streamBit w xs (5 * i + 3)
      + streamBit w xs (5 * i + 4) := by
  simp [streamGroup, List.range_succ]
  omega

theorem streamBit_skip (s0 s1 s2 s3 s4 : Nat) (rest : List Nat) (j : Nat) :
    streamBit 8 (s0 :: s1 :: s2 :: s3 :: s4 :: rest) (40 + j) = streamBit 8 rest j := by
  have h1 : (40 + j) / 8 = j / 8 + 5 := by omega
  have h2 : (40 + j) % 8 = j % 8 := by omega
  simp [streamBit, h1, h2]

theorem streamGroup_skip (s0 s1 s2 s3 s4 : Nat) (rest : List Nat) (i : Nat) :
    streamGroup 8 5 (s0 :: s1 :: s2 :: s3 :: s4 :: rest) (8 + i) = streamGroup 8 5 rest i := by
  simp only [streamGroup_five]
  have h0 : 5 * (8 + i) = 40 + 5 * i := by omega
  rw [h0]
  simp only [Nat.add_assoc, streamBit_skip]

theorem groups_spec_four (s0 s1 s2 s3 : Nat) (h0 : s0 < 256) (h1 : s1 < 256)
    (h2 : s2 < 256) (h3 : s3 < 256) :
    groups [s0, s1, s2, s3] = (List.range 7).map (streamGroup 8 5 [s0, s1, s2, s3]) := by
  rw [groups]
  simp only [List.range_succ, List.range_zero,
      List.nil_append, List.cons_append, List.map_cons, List.map_nil, streamGroup_five,
      streamBit, Nat.shiftRight_eq_div_pow]
  simp
  omega

theorem groups_spec_three (s0 s1 s2 : Nat) (h0 : s0 < 256) (h1 : s1 < 256) (h2 : s2 < 256) :
    groups [s0, s1, s2] = (List.range 5).map (streamGroup 8 5 [s0, s1, s2]) := by
  rw [groups]
  simp only [List.range_succ, List.range_zero,
      List.nil_append, List.cons_append, List.map_cons, List.map_nil, streamGroup_five,
      streamBit, Nat.shiftRight_eq_div_pow]
  simp
  omega

theorem groups_spec_two (s0 s1 : Nat) (h0 : s0 < 256) (h1 : s1 < 256) :
    groups [s0, s1] = (List.range 4).map (streamGroup 8 5 [s0, s1]) := by
  rw [groups]
  simp only [List.range_succ, List.range_zero,
      List.nil_append, List.cons_append, List.map_cons, List.map_nil, streamGroup_five,
      streamBit, Nat.shiftRight_eq_div_pow]
  simp
  omega

theorem groups_spec_one (s0 : Nat) (h0 : s0 < 256) :
    groups [s0] = (List.range 2).map (streamGroup 8 5 [s0]) := by
  rw [groups]
  simp only [List.range_succ, List.range_zero,
      List.nil_append, List.cons_append, List.map_cons, List.map_nil, streamGroup_five,
      streamBit, Nat.shiftRight_eq_div_pow]
  simp
  omega

theorem groups_spec_full (s0 s1 s2 s3 s4 : Nat) (rest : List Nat) (h0 : s0 < 256)
    (h1 : s1 < 256) (h2 : s2 < 256) (h3 : s3 < 256) (h4 : s4 < 256) :
    [s0 / 8, s0 % 8 * 4 + s1 / 64, s1 / 2 % 32, s1 % 2 * 16 + s2 / 16,
      s2 % 16 * 2 + s3 / 128, s3 / 4 % 32, s3 % 4 * 8 + s4 / 32, s4 % 32]
    = (List.range 8).map (streamGroup 8 5 (s0 :: s1 :: s2 :: s3 :: s4 :: rest)) := by
  simp only [List.range_succ, List.range_zero, List.nil_append, List.cons_append,
    List.map_cons, List.map_nil, streamGroup_five, streamBit, Nat.shiftRight_eq_div_pow]
  simp
  omega

/-- The groups of a byte string are the groups of five bits of its stream. -/
theorem groups_eq_spec : ∀ b : List Nat, IsBytes b →
    groups b = (List.range ((8 * b.length + 4) / 5)).map (streamGroup 8 5 b)
  | s0 :: s1 :: s2 :: s3 :: s4 :: rest, hb => by
    have hr : IsBytes rest := fun x hx => hb x (by simp [hx])
    have hl : (8 * (s0 :: s1 :: s2 :: s3 :: s4 :: rest).length + 4) / 5
        = 8 + (8 * rest.length + 4) / 5 := by
      simp only [List.length_cons]; omega
    rw [groups, hl, List.range_add, List.map_append, List.map_map, groups_eq_spec rest hr,
      groups_spec_full s0 s1 s2 s3 s4 rest (hb _ (by simp)) (hb _ (by simp)) (hb _ (by simp))
        (hb _ (by simp)) (hb _ (by simp))]
    rw [List.append_cancel_left_eq]
    apply List.map_congr_left
    intro i _
    rw [Function.comp_apply]
    exact (streamGroup_skip s0 s1 s2 s3 s4 rest i).symm
  | [s0, s1, s2, s3], hb => by
    rw [groups_spec_four s0 s1 s2 s3 (hb _ (by simp)) (hb _ (by simp)) (hb _ (by simp))
      (hb _ (by simp))]
    simp
  | [s0, s1, s2], hb => by
    rw [groups_spec_three s0 s1 s2 (hb _ (by simp)) (hb _ (by simp)) (hb _ (by simp))]
    simp
  | [s0, s1], hb => by
    rw [groups_spec_two s0 s1 (hb _ (by simp)) (hb _ (by simp))]
    simp
  | [s0], hb => by
    rw [groups_spec_one s0 (hb _ (by simp))]
    simp
  | [], _ => by simp [groups]

/-- The five bytes of a full quantum of table values, in arithmetic form. -/
theorem pack_bytes (d0 d1 d2 d3 d4 d5 d6 d7 : Nat) (h0 : d0 < 32) (h1 : d1 < 32)
    (h2 : d2 < 32) (h3 : d3 < 32) (h4 : d4 < 32) (h5 : d5 < 32) (h6 : d6 < 32) (h7 : d7 < 32) :
    ((d0 <<< 3) % 256 ||| d1 >>> 2) = d0 * 8 + d1 / 4 ∧
    ((d1 <<< 6) % 256 ||| (d2 <<< 1) % 256 ||| d3 >>> 4) = d1 % 4 * 64 + d2 * 2 + d3 / 16 ∧
    ((d3 <<< 4) % 256 ||| d4 >>> 1) = d3 % 16 * 16 + d4 / 2 ∧
    ((d4 <<< 7) % 256 ||| (d5 <<< 2) % 256 ||| d6 >>> 3) = d4 % 2 * 128 + d5 * 4 + d6 / 8 ∧
    ((d6 <<< 5) % 256 ||| d7) = d6 % 8 * 32 + d7 := by
  simp only [Nat.shiftLeft_eq, Nat.shiftRight_eq_div_pow]
  rw [lor_eq_add 3 (d0 * 2 ^ 3 % 256) (d1 / 2 ^ 2) (by omega) (by omega),
    lor_eq_add 6 (d1 * 2 ^ 6 % 256) (d2 * 2 ^ 1 % 256) (by omega) (by omega),
    lor_eq_add 1 _ (d3 / 2 ^ 4) (by omega) (by omega),
    lor_eq_add 4 (d3 * 2 ^ 4 % 256) (d4 / 2 ^ 1) (by omega) (by omega),
    lor_eq_add 7 (d4 * 2 ^ 7 % 256) (d5 * 2 ^ 2 % 256) (by omega) (by omega),
    lor_eq_add 2 _ (d6 / 2 ^ 3) (by omega) (by omega),
    lor_eq_add 5 (d6 * 2 ^ 5 % 256) d7 (by omega) (by omega)]
  omega

theorem getD_lt (dbuf : List Nat) (h : ∀ x ∈ dbuf, x < 32) (i : Nat) : dbuf.getD i 0 < 32 := by
  rw [List.getD_eq_getElem?_getD]
  cases hi : dbuf[i]? with
  | none => simp
  | some x => exact h x (List.getElem?_mem hi)

/-- The bytes written by the `switch dlen`, in arithmetic form. -/
theorem decodePack_eq (dbuf : List Nat) (dlen : Nat) (h : ∀ x ∈ dbuf, x < 32) :
    decodePack dbuf dlen =
      List.take (if dlen = 8 then 5 else if dlen = 7 then 4 else if dlen = 5 then 3
        else if dlen = 4 then 2 else if dlen = 2 then 1 else 0)
      [dbuf.getD 0 0 * 8 + dbuf.getD 1 0 / 4,
       dbuf.getD 1 0 % 4 * 64 + dbuf.getD 2 0 * 2 + dbuf.getD 3 0 / 16,
       dbuf.getD 3 0 % 16 * 16 + dbuf.getD 4 0 / 2,
       dbuf.getD 4 0 % 2 * 128 + dbuf.getD 5 0 * 4 + dbuf.getD 6 0 / 8,
       dbuf.getD 6 0 % 8 * 32 + dbuf.getD 7 0] := by
  obtain ⟨e0, e1, e2, e3, e4⟩ := pack_bytes (dbuf.getD 0 0) (dbuf.getD 1 0) (dbuf.getD 2 0)
    (dbuf.getD 3 0) (dbuf.getD 4 0) (dbuf.getD 5 0) (dbuf.getD 6 0) (dbuf.getD 7 0)
    (getD_lt dbuf h 0) (getD_lt dbuf h 1) (getD_lt dbuf h 2) (getD_lt dbuf h 3)
    (getD_lt dbuf h 4) (getD_lt dbuf h 5) (getD_lt dbuf h 6) (getD_lt dbuf h 7)
  simp only [decodePack, e0, e1, e2, e3, e4]
  split_ifs <;> rfl

theorem packAll_short : ∀ l : List Nat, l.length < 8 → packAll l = decodePack l l.length
  | [], _ => by simp [packAll]
  | [_], _ => by simp [packAll]
  | [_, _], _ => by simp [packAll]
  | [_, _, _], _ => by simp [packAll]
  | [_, _, _, _], _ => by simp [packAll]
  | [_, _, _, _, _], _ => by simp [packAll]
  | [_, _, _, _, _, _], _ => by simp [packAll]
  | [_, _, _, _, _, _, _], _ => by simp [packAll]
  | _ :: _ :: _ :: _ :: _ :: _ :: _ :: _ :: _, h => by simp at h; omega

theorem packAll_append : ∀ q rest : List Nat, q.length = 8 →
    packAll (q ++ rest) = decodePack q 8 ++ packAll rest
  | [d0, d1, d2, d3, d4, d5, d6, d7], rest, _ => by simp [packAll]
  | [], _, h => by simp at h
  | [_], _, h => by simp at h
  | [_, _], _, h => by simp at h
  | [_, _, _], _, h => by simp at h
  | [_, _, _, _], _, h => by simp at h
  | [_, _, _, _, _], _, h => by simp at h
  | [_, _, _, _, _, _], _, h => by simp at h
  | [_, _, _, _, _, _, _], _, h => by simp at h
  | _ :: _ :: _ :: _ :: _ :: _ :: _ :: _ :: _ :: _, _, h => by simp at h

theorem runeByte_NoPadding : runeByte NoPadding = 255 := by decide

/-- Both alphabets meet the conditions of `NewEncoding`: building `Lower` and `Upper`
does not panic. -/
theorem alphabets_ok : AlphabetOk LowercaseAlphabet ∧ AlphabetOk UppercaseAlphabet := by
  unfold AlphabetOk IsBytes
  decide

/-- On a string of alphabet symbols `decode` never fails: it writes the packing of the
table values. -/
theorem decodeLoop_symbols (e : Encoding) (he : Sound e) (olen : Nat) :
    ∀ (s dbuf dst : List Nat), (∀ c ∈ s, c ∈ e.encode) → dbuf.length < 8 →
      decodeLoop e olen s dbuf dst = .ok (dst ++ packAll (dbuf ++ s.map e.val))
  | [], dbuf, dst, _, hd => by
    simp only [decodeLoop, List.map_nil, List.append_nil, packAll_short dbuf hd, he.1]
    by_cases h0 : dbuf.length = 0
    · have : dbuf = [] := List.length_eq_zero.mp h0
      subst this
      simp [decodePack]
    · simp [h0]
  | c :: src, dbuf, dst, hs, hd => by
    have hc := he.2.2.1 c (hs c (by simp))
    have hsrc : ∀ x ∈ src, x ∈ e.encode := fun x hx => hs x (by simp [hx])
    have hpad : ¬ (c = runeByte e.padChar ∧ 2 ≤ dbuf.length ∧ src.length < 8) := by
      rw [he.1, runeByte_NoPadding]
      exact fun h => hc.2.1 h.1
    have hv : e.val c ≠ 255 := by omega
    rw [decodeLoop]
    simp only [hpad, if_false, hv]
    by_cases h8 : dbuf.length + 1 = 8
    · rw [if_pos h8, decodeLoop_symbols e he olen src [] _ hsrc (by simp)]
      have hq : (dbuf ++ [e.val c]).length = 8 := by simp [h8]
      have := packAll_append (dbuf ++ [e.val c]) (src.map e.val) hq
      simp only [List.append_assoc, List.singleton_append, List.nil_append] at this ⊢
      rw [List.map_cons, this]
    · rw [if_neg h8, decodeLoop_symbols e he olen src _ dst hsrc (by simp; omega)]
      simp

set_option maxRecDepth 20000 in
theorem Lower_sound : Sound Lower := by
  refine ⟨rfl, ?_, ?_, ?_, ?_⟩ <;> decide

set_option maxRecDepth 20000 in
theorem Upper_sound : Sound Upper := by
  refine ⟨rfl, ?_, ?_, ?_, ?_⟩ <;> decide

theorem groups_lt : ∀ b : List Nat, IsBytes b → ∀ g ∈ groups b, g < 32
  | s0 :: s1 :: s2 :: s3 :: s4 :: rest, hb => by
    have hr : IsBytes rest := fun x hx => hb x (by simp [hx])
    have h0 := hb s0 (by simp)
    have h1 := hb s1 (by simp)
    have h2 := hb s2 (by simp)
    have h3 := hb s3 (by simp)
    have h4 := hb s4 (by simp)
    intro g hg
    rw [groups, List.mem_append] at hg
    rcases hg with hg | hg
    · simp only [List.mem_cons, List.mem_singleton, List.not_mem_nil, or_false] at hg
      omega
    · exact groups_lt rest hr g hg
  | [s0, s1, s2, s3], hb => by
    have h0 := hb s0 (by simp)
    have h1 := hb s1 (by simp)
    have h2 := hb s2 (by simp)
    have h3 := hb s3 (by simp)
    intro g hg
    simp only [groups, List.mem_cons, List.mem_singleton, List.not_mem_nil, or_false] at hg
    omega
  | [s0, s1, s2], hb => by
    have h0 := hb s0 (by simp)
    have h1 := hb s1 (by simp)
    have h2 := hb s2 (by simp)
    intro g hg
    simp only [groups, List.mem_cons, List.mem_singleton, List.not_mem_nil, or_false] at hg
    omega
  | [s0, s1], hb => by
    have h0 := hb s0 (by simp)
    have h1 := hb s1 (by simp)
    intro g hg
    simp only [groups, List.mem_cons, List.mem_singleton, List.not_mem_nil, or_false] at hg
    omega
  | [s0], hb => by
    have h0 := hb s0 (by simp)
    intro g hg
    simp only [groups, List.mem_cons, List.mem_singleton, List.not_mem_nil, or_false] at hg
    omega
  | [], _ => by simp [groups]

theorem pack_groups_full (s0 s1 s2 s3 s4 : Nat) (h0 : s0 < 256) (h1 : s1 < 256)
    (h2 : s2 < 256) (h3 : s3 < 256) (h4 : s4 < 256) :
    decodePack [s0 / 8, s0 % 8 * 4 + s1 / 64, s1 / 2 % 32, s1 % 2 * 16 + s2 / 16,
      s2 % 16 * 2 + s3 / 128, s3 / 4 % 32, s3 % 4 * 8 + s4 / 32, s4 % 32] 8
    = [s0, s1, s2, s3, s4] := by
  rw [decodePack_eq _ _ (by
    simp only [List.mem_cons, List.mem_singleton, List.not_mem_nil, or_false]
    intro x hx; omega)]
  simp
  omega

theorem pack_groups_four (s0 s1 s2 s3 : Nat) (h0 : s0 < 256) (h1 : s1 < 256)
    (h2 : s2 < 256) (h3 : s3 < 256) :
    packAll (groups [s0, s1, s2, s3]) = [s0, s1, s2, s3] := by
  rw [groups, packAll_short _ (by simp), decodePack_eq _ _ (by
    simp only [List.mem_cons, List.mem_singleton, List.not_mem_nil, or_false]
    intro x hx; omega)]
  simp
  omega

theorem pack_groups_three (s0 s1 s2 : Nat) (h0 : s0 < 256) (h1 : s1 < 256) (h2 : s2 < 256) :
    packAll (groups [s0, s1, s2]) = [s0, s1, s2] := by
  rw [groups, packAll_short _ (by simp), decodePack_eq _ _ (by
    simp only [List.mem_cons, List.mem_singleton, List.not_mem_nil, or_false]
    intro x hx; omega)]
  simp
  omega

theorem pack_groups_two (s0 s1 : Nat) (h0 : s0 < 256) (h1 : s1 < 256) :
    packAll (groups [s0, s1]) = [s0, s1] := by
  rw [groups, packAll_short _ (by simp), decodePack_eq _ _ (by
    simp only [List.mem_cons, List.mem_singleton, List.not_mem_nil, or_false]
    intro x hx; omega)]
  simp
  omega

theorem pack_groups_one (s0 : Nat) (h0 : s0 < 256) : packAll (groups [s0]) = [s0] := by
  rw [groups, packAll_short _ (by simp), decodePack_eq _ _ (by
    simp only [List.mem_cons, List.mem_singleton, List.not_mem_nil, or_false]
    intro x hx; omega)]
  simp
  omega

/-- Packing the groups of a byte string gives the byte string back. -/
theorem packAll_groups : ∀ b : List Nat, IsBytes b → packAll (groups b) = b
  | s0 :: s1 :: s2 :: s3 :: s4 :: rest, hb => by
    have hr : IsBytes rest := fun x hx => hb x (by simp [hx])
    have h := packAll_append [s0 / 8, s0 % 8 * 4 + s1 / 64, s1 / 2 % 32, s1 % 2 * 16 + s2 / 16,
      s2 % 16 * 2 + s3 / 128, s3 / 4 % 32, s3 % 4 * 8 + s4 / 32, s4 % 32] (groups rest) rfl
    rw [groups, h, pack_groups_full s0 s1 s2 s3 s4 (hb _ (by simp)) (hb _ (by simp))
      (hb _ (by simp)) (hb _ (by simp)) (hb _ (by simp)), packAll_groups rest hr]
    rfl
  | [s0, s1, s2, s3], hb =>
    pack_groups_four s0 s1 s2 s3 (hb _ (by simp)) (hb _ (by simp)) (hb _ (by simp))
      (hb _ (by simp))
  | [s0, s1, s2], hb =>
    pack_groups_three s0 s1 s2 (hb _ (by simp)) (hb _ (by simp)) (hb _ (by simp))
  | [s0, s1], hb => pack_groups_two s0 s1 (hb _ (by simp)) (hb _ (by simp))
  | [s0], hb => pack_groups_one s0 (hb _ (by simp))
  | [], _ => by simp [groups, packAll, decodePack]

theorem stripNewlines_symbols (e : Encoding) (he : Sound e) (s : List Nat)
    (hs : ∀ c ∈ s, c ∈ e.encode) : stripNewlines s = s := by
  unfold stripNewlines
  rw [List.filter_eq_self]
  intro c hc
  have := he.2.2.1 c (hs c hc)
  simp [this.2.2.1, this.2.2.2]

theorem map_sym_mem (e : Encoding) (he : Sound e) (g : List Nat) (hg : ∀ x ∈ g, x < 32) :
    ∀ c ∈ g.map e.sym, c ∈ e.encode := by
  intro c hc
  obtain ⟨x, hx, rfl⟩ := List.mem_map.mp hc
  exact (he.2.1 x (hg x hx)).2

theorem map_val_sym (e : Encoding) (he : Sound e) (g : List Nat) (hg : ∀ x ∈ g, x < 32) :
    (g.map e.sym).map e.val = g := by
  rw [List.map_map]
  conv_rhs => rw [← List.map_id g]
  apply List.map_congr_left
  intro x hx
  exact (he.2.1 x (hg x hx)).1

/-- Decoding the symbols of a string of group values below 32 gives their packing. -/
theorem Decode_symbols (e : Encoding) (he : Sound e) (s : List Nat)
    (hs : ∀ c ∈ s, c ∈ e.encode) : Decode e s = .ok (packAll (s.map e.val)) := by
  unfold Decode
  simp only [stripNewlines_symbols e he s hs]
  rw [decodeLoop_symbols e he _ s [] [] hs (by simp)]
  simp

theorem roundtrip_sound (e : Encoding) (he : Sound e) (b : List Nat) (hb : IsBytes b) :
    Decode e (Encode e b) = .ok b := by
  rw [Encode_eq_groups e he.1 b hb,
    Decode_symbols e he _ (map_sym_mem e he _ (groups_lt b hb)),
    map_val_sym e he _ (groups_lt b hb), packAll_groups b hb]

/-- C1. Round trip: for every byte string `b`, the empty one included, decoding the
encoding of `b` with `Lower`, and with `Upper`, succeeds and returns exactly `b`. -/
theorem decode_encode_roundtrip (b : List Nat) (hb : IsBytes b) :
    Decode Lower (Encode Lower b) = .ok b ∧ Decode Upper (Encode Upper b) = .ok b :=
  ⟨roundtrip_sound Lower Lower_sound b hb, roundtrip_sound Upper Upper_sound b hb⟩

theorem decode_encode_roundtrip_witness :
    IsBytes [102, 111, 111, 98, 97, 114, 255, 0] ∧
    Decode Lower (Encode Lower [102, 111, 111, 98, 97, 114, 255, 0])
      = .ok [102, 111, 111, 98, 97, 114, 255, 0] ∧
    Decode Upper (Encode Upper [102, 111, 111, 98, 97, 114, 255, 0])
      = .ok [102, 111, 111, 98, 97, 114, 255, 0] :=
  ⟨by decide, decode_encode_roundtrip [102, 111, 111, 98, 97, 114, 255, 0] (by decide)⟩

theorem Encode_eq_spec (e : Encoding) (he : e.padChar = NoPadding) (b : List Nat)
    (hb : IsBytes b) : Encode e b = encodeSpec e.encode b := by
  rw [Encode_eq_groups e he b hb, groups_eq_spec b hb, encodeSpec, List.map_map]
  rfl

/-- C2. `Encode` is the bit stream reference: for every byte string `b` and for `Lower`
and `Upper`, the output is one symbol for each group of five bits of `b` read as one
stream, most significant bit first, bits past the end being zero; symbol `i` is the
alphabet character at the index made of the bits `5i` to `5i+4`. -/
theorem encode_eq_bitstream (b : List Nat) (hb : IsBytes b) :
    Encode Lower b = encodeSpec LowercaseAlphabet b ∧
    Encode Upper b = encodeSpec UppercaseAlphabet b :=
  ⟨Encode_eq_spec Lower rfl b hb, Encode_eq_spec Upper rfl b hb⟩

theorem encode_eq_bitstream_witness :
    IsBytes [0, 255, 16] ∧
    Encode Lower [0, 255, 16] = encodeSpec LowercaseAlphabet [0, 255, 16] ∧
    Encode Upper [0, 255, 16] = encodeSpec UppercaseAlphabet [0, 255, 16] :=
  ⟨by decide, encode_eq_bitstream [0, 255, 16] (by decide)⟩

theorem Encode_length (e : Encoding) (he : e.padChar = NoPadding) :
    ∀ b : List Nat, (Encode e b).length = (8 * b.length + 4) / 5
  | s0 :: s1 :: s2 :: s3 :: s4 :: rest => by
    rw [Encode, List.length_append, Encode_length e he rest]
    simp only [encodeFull, List.length_cons, List.length_nil]
    omega
  | [_, _, _, _] => by simp [Encode, encodeFinal, encodePad_none e he]
  | [_, _, _] => by simp [Encode, encodeFinal, encodePad_none e he]
  | [_, _] => by simp [Encode, encodeFinal, encodePad_none e he]
  | [_] => by simp [Encode, encodeFinal, encodePad_none e he]
  | [] => by simp [Encode, encodeFinal]

theorem sym_mask_mem (e : Encoding) (he : Sound e) (x : Nat) :
    e.sym (x &&& 0x1F) ∈ e.encode := by
  rw [and_mask]
  exact (he.2.1 _ (Nat.mod_lt _ (by decide))).2

theorem Encode_mem (e : Encoding) (he : Sound e) :
    ∀ b : List Nat, ∀ c ∈ Encode e b, c ∈ e.encode
  | s0 :: s1 :: s2 :: s3 :: s4 :: rest => by
    intro c hc
    rw [Encode, List.mem_append] at hc
    rcases hc with hc | hc
    · simp only [encodeFull, List.mem_cons, List.mem_singleton, List.not_mem_nil,
        or_false] at hc
      rcases hc with h | h | h | h | h | h | h | h <;> rw [h] <;> exact sym_mask_mem e he _
    · exact Encode_mem e he rest c hc
  | [_, _, _, _] => by
    intro c hc
    simp only [Encode, encodeFinal, encodePad_none e he.1, List.append_nil, List.mem_cons,
      List.mem_singleton, List.not_mem_nil, or_false] at hc
    rcases hc with h | h | h | h | h | h | h <;> rw [h] <;> exact sym_mask_mem e he _
  | [_, _, _] => by
    intro c hc
    simp only [Encode, encodeFinal, encodePad_none e he.1, List.append_nil, List.mem_cons,
      List.mem_singleton, List.not_mem_nil, or_false] at hc
    rcases hc with h | h | h | h | h <;> rw [h] <;> exact sym_mask_mem e he _
  | [_, _] => by
    intro c hc
    simp only [Encode, encodeFinal, encodePad_none e he.1, List.append_nil, List.mem_cons,
      List.mem_singleton, List.not_mem_nil, or_false] at hc
    rcases hc with h | h | h | h <;> rw [h] <;> exact sym_mask_mem e he _
  | [_] => by
    intro c hc
    simp only [Encode, encodeFinal, encodePad_none e he.1, List.append_nil, List.mem_cons,
      List.mem_singleton, List.not_mem_nil, or_false] at hc
    rcases hc with h | h <;> rw [h] <;> exact sym_mask_mem e he _
  | [] => by simp [Encode, encodeFinal]

/-- C3. Length law: for every byte string `b` and for `Lower` and `Upper`, the output of
`Encode` has exactly `ceil(8*len(b)/5)` symbols (the least `k` with `8*len(b) <= 5*k`,
which is `(8*len(b)+4)/5`), and every one of them is a symbol of the alphabet: no padding
or separator character is written. -/
theorem encode_length_law (b : List Nat) :
    ((Encode Lower b).length = (8 * b.length + 4) / 5 ∧
      8 * b.length ≤ 5 * (Encode Lower b).length ∧
      5 * (Encode Lower b).length < 8 * b.length + 5 ∧
      ∀ c ∈ Encode Lower b, c ∈ LowercaseAlphabet) ∧
    ((Encode Upper b).length = (8 * b.length + 4) / 5 ∧
      8 * b.length ≤ 5 * (Encode Upper b).length ∧
      5 * (Encode Upper b).length < 8 * b.length + 5 ∧
      ∀ c ∈ Encode Upper b, c ∈ UppercaseAlphabet) := by
  have hl := Encode_length Lower rfl b
  have hu := Encode_length Upper rfl b
  refine ⟨⟨hl, ?_, ?_, Encode_mem Lower Lower_sound b⟩,
    ⟨hu, ?_, ?_, Encode_mem Upper Upper_sound b⟩⟩ <;> omega

/-- C7. Empty input: for `Lower` and `Upper`, `Encode` of the empty byte string is the
empty symbol string, and `Decode` of the empty symbol string succeeds with the empty byte
string. -/
theorem empty_input :
    Encode Lower [] = [] ∧ Decode Lower [] = .ok [] ∧
    Encode Upper [] = [] ∧ Decode Upper [] = .ok [] := by
  decide

theorem val_of_not_mem (e : Encoding) (he : Sound e) (c : Nat) (hc : c ∉ e.encode) :
    e.val c = 255 := by
  by_cases h : c < 256
  · exact he.2.2.2.1 c h hc
  · unfold Encoding.val
    rw [List.getD_eq_getElem?_getD, List.getElem?_eq_none (by rw [he.2.2.2.2]; omega)]
    rfl

theorem stripNewlines_append (a b : List Nat) :
    stripNewlines (a ++ b) = stripNewlines a ++ stripNewlines b := by
  simp [stripNewlines]

theorem stripNewlines_cons_keep (c : Nat) (s : List Nat) (h10 : c ≠ 10) (h13 : c ≠ 13) :
    stripNewlines (c :: s) = c :: stripNewlines s := by
  simp [stripNewlines, h10, h13]

theorem stripNewlines_mem (e : Encoding) (s : List Nat)
    (hs : ∀ x ∈ s, x ∈ e.encode ∨ x = 10 ∨ x = 13) :
    ∀ x ∈ stripNewlines s, x ∈ e.encode := by
  intro x hx
  simp only [stripNewlines, List.mem_filter, Bool.not_eq_true', Bool.or_eq_false_iff,
    beq_eq_false_iff_ne, ne_eq] at hx
  rcases hs x hx.1 with h | h | h
  · exact h
  · exact absurd h hx.2.2
  · exact absurd h hx.2.1

/-- The byte `c`, which is neither a symbol nor `0xFF`, stops `decode` with the offset
of `c`, whatever symbols come before it. -/
theorem decodeLoop_invalid (e : Encoding) (he : Sound e) (olen c : Nat) (post : List Nat)
    (hc : c ∉ e.encode) (hff : c ≠ 255) :
    ∀ (pre dbuf dst : List Nat), (∀ x ∈ pre, x ∈ e.encode) →
      decodeLoop e olen (pre ++ c :: post) dbuf dst = .error (olen - post.length - 1)
  | [], dbuf, dst, _ => by
    have hpad : ¬ (c = runeByte e.padChar ∧ 2 ≤ dbuf.length ∧ post.length < 8) := by
      rw [he.1, runeByte_NoPadding]
      exact fun h => hff h.1
    rw [List.nil_append, decodeLoop]
    simp only [hpad, if_false, val_of_not_mem e he c hc, if_true]
  | x :: pre, dbuf, dst, hp => by
    have hx := he.2.2.1 x (hp x (by simp))
    have hpre : ∀ y ∈ pre, y ∈ e.encode := fun y hy => hp y (by simp [hy])
    have hpad : ¬ (x = runeByte e.padChar ∧ 2 ≤ dbuf.length ∧
        (pre ++ c :: post).length < 8) := by
      rw [he.1, runeByte_NoPadding]
      exact fun h => hx.2.1 h.1
    have hv : e.val x ≠ 255 := by omega
    rw [List.cons_append, decodeLoop]
    simp only [hpad, if_false, hv]
    split_ifs
    · exact decodeLoop_invalid e he olen c post hc hff pre _ _ hpre
    · exact decodeLoop_invalid e he olen c post hc hff pre _ _ hpre

theorem Decode_invalid (e : Encoding) (he : Sound e) (pre post : List Nat) (c : Nat)
    (hpre : ∀ x ∈ pre, x ∈ e.encode ∨ x = 10 ∨ x = 13)
    (hc : c ∉ e.encode) (h10 : c ≠ 10) (h13 : c ≠ 13) (hff : c ≠ 255) :
    Decode e (pre ++ c :: post) = .error (stripNewlines pre).length := by
  unfold Decode
  simp only [stripNewlines_append, stripNewlines_cons_keep c post h10 h13]
  rw [decodeLoop_invalid e he _ c _ hc hff _ _ _ (stripNewlines_mem e pre hpre)]
  congr 1
  simp only [List.length_append, List.length_cons]
  omega

/-- C4 (amended). Invalid symbol rejection: for `Lower` and `Upper`, if the first byte of
`s` that is neither a symbol of the alphabet nor `\r` nor `\n` exists and is not `0xFF`,
then `Decode` fails, and the error carries the offset of that byte in `s` without its
newlines; in particular `Decode` of `!!!` with `Upper` fails. -/
theorem decode_rejects_invalid_symbol (pre post : List Nat) (c : Nat)
    (h10 : c ≠ 10) (h13 : c ≠ 13) (hff : c ≠ 255) :
    ((∀ x ∈ pre, x ∈ LowercaseAlphabet ∨ x = 10 ∨ x = 13) → c ∉ LowercaseAlphabet →
      Decode Lower (pre ++ c :: post) = .error (stripNewlines pre).length) ∧
    ((∀ x ∈ pre, x ∈ UppercaseAlphabet ∨ x = 10 ∨ x = 13) → c ∉ UppercaseAlphabet →
      Decode Upper (pre ++ c :: post) = .error (stripNewlines pre).length) ∧
    Decode Upper (bytesOf "!!!") = .error 0 :=
  ⟨fun hpre hc => Decode_invalid Lower Lower_sound pre post c hpre hc h10 h13 hff,
   fun hpre hc => Decode_invalid Upper Upper_sound pre post c hpre hc h10 h13 hff,
   by decide⟩

theorem decode_rejects_invalid_symbol_witness :
    (45 : Nat) ≠ 10 ∧ (45 : Nat) ≠ 13 ∧ (45 : Nat) ≠ 255 ∧
    (∀ x ∈ bytesOf "0a\n1", x ∈ LowercaseAlphabet ∨ x = 10 ∨ x = 13) ∧
    45 ∉ LowercaseAlphabet ∧
    Decode Lower (bytesOf "0a\n1" ++ 45 :: bytesOf "zz") = .error 3 ∧
    (∀ x ∈ bytesOf "0A\n1", x ∈ UppercaseAlphabet ∨ x = 10 ∨ x = 13) ∧
    45 ∉ UppercaseAlphabet ∧
    Decode Upper (bytesOf "0A\n1" ++ 45 :: bytesOf "ZZ") = .error 3 :=
  ⟨by decide, by decide, by decide, by decide, by decide,
   (decode_rejects_invalid_symbol (bytesOf "0a\n1") (bytesOf "zz") 45
      (by decide) (by decide) (by decide)).1 (by decide) (by decide),
   by decide, by decide,
   (decode_rejects_invalid_symbol (bytesOf "0A\n1") (bytesOf "ZZ") 45
      (by decide) (by decide) (by decide)).2.1 (by decide) (by decide)⟩

/-- C4 (as stated) fails: `Decode` with `Upper` returns bytes for a string that holds
the byte `\n`, and for one that holds bytes `0xFF`, although neither byte is a symbol of
the alphabet. -/
theorem decode_accepts_foreign_bytes :
    (10 ∈ [48, 48, 10] ∧ 10 ∉ UppercaseAlphabet ∧ Decode Upper [48, 48, 10] = .ok [0]) ∧
    (255 ∈ [48, 48, 255, 255, 255, 255, 255, 255] ∧ 255 ∉ UppercaseAlphabet ∧
      Decode Upper [48, 48, 255, 255, 255, 255, 255, 255] = .ok [0]) := by
  decide

theorem streamGroup_eight (w : Nat) (xs : List Nat) (i : Nat) :
    streamGroup w 8 xs i = 128 * streamBit w xs (8 * i) + 64 * streamBit w xs (8 * i + 1)
      + 32 * streamBit w xs (8 * i + 2) + 16 * streamBit w xs (8 * i + 3)
      + 8 * streamBit w xs (8 * i + 4) + 4 * streamBit w xs (8 * i + 5)
      + 2 * streamBit w xs (8 * i + 6) + streamBit w xs (8 * i + 7) := by
  simp [streamGroup, List.range_succ]
  omega

theorem streamBit_skip_vals (d0 d1 d2 d3 d4 d5 d6 d7 : Nat) (rest : List Nat) (j : Nat) :
    streamBit 5 (d0 :: d1 :: d2 :: d3 :: d4 :: d5 :: d6 :: d7 :: rest) (40 + j)
      = streamBit 5 rest j := by
  have h1 : (40 + j) / 5 = j / 5 + 8 := by omega
  have h2 : (40 + j) % 5 = j % 5 := by omega
  simp [streamBit, h1, h2]

theorem streamGroup_skip_vals (d0 d1 d2 d3 d4 d5 d6 d7 : Nat) (rest : List Nat) (i : Nat) :
    streamGroup 5 8 (d0 :: d1 :: d2 :: d3 :: d4 :: d5 :: d6 :: d7 :: rest) (5 + i)
      = streamGroup 5 8 rest i := by
  simp only [streamGroup_eight]
  have h0 : 8 * (5 + i) = 40 + 8 * i := by omega
  rw [h0]
  simp only [Nat.add_assoc, streamBit_skip_vals]

theorem packAll_spec_full (d0 d1 d2 d3 d4 d5 d6 d7 : Nat) (rest : List Nat) (h0 : d0 < 32)
    (h1 : d1 < 32) (h2 : d2 < 32) (h3 : d3 < 32) (h4 : d4 < 32) (h5 : d5 < 32)
    (h6 : d6 < 32) (h7 : d7 < 32) :
    decodePack [d0, d1, d2, d3, d4, d5, d6, d7] 8
      = (List.range 5).map
          (streamGroup 5 8 (d0 :: d1 :: d2 :: d3 :: d4 :: d5 :: d6 :: d7 :: rest)) := by
  rw [decodePack_eq _ _ (by
    simp only [List.mem_cons, List.mem_singleton, List.not_mem_nil, or_false]
    intro x hx; omega)]
  simp only [List.range_succ, List.range_zero, List.nil_append, List.cons_append,
    List.map_cons, List.map_nil, streamGroup_eight, streamBit, Nat.shiftRight_eq_div_pow]
  simp
  refine ⟨?_, ?_, ?_, ?_, ?_⟩ <;> omega

theorem packAll_spec_one (d0 : Nat) (h0 : d0 < 32) :
    packAll [d0] = decodeSpec [d0] := by
  have hk : 5 * ([d0] : List Nat).length / 8 = 0 := by simp
  rw [packAll_short _ (by simp), decodeSpec, hk, decodePack_eq _ _ (by
    simp only [List.mem_cons, List.mem_singleton, List.not_mem_nil, or_false]
    intro x hx; omega)]
  simp only [List.range_succ, List.range_zero, List.nil_append, List.cons_append,
    List.map_cons, List.map_nil, streamGroup_eight, streamBit, Nat.shiftRight_eq_div_pow]
  simp

theorem packAll_spec_two (d0 d1 : Nat) (h0 : d0 < 32) (h1 : d1 < 32) :
    packAll [d0, d1] = decodeSpec [d0, d1] := by
  have hk : 5 * ([d0, d1] : List Nat).length / 8 = 1 := by simp
  rw [packAll_short _ (by simp), decodeSpec, hk, decodePack_eq _ _ (by
    simp only [List.mem_cons, List.mem_singleton, List.not_mem_nil, or_false]
    intro x hx; omega)]
  simp only [List.range_succ, List.range_zero, List.nil_append, List.cons_append,
    List.map_cons, List.map_nil, streamGroup_eight, streamBit, Nat.shiftRight_eq_div_pow]
  simp
  omega

theorem packAll_spec_four (d0 d1 d2 d3 : Nat) (h0 : d0 < 32) (h1 : d1 < 32) (h2 : d2 < 32)
    (h3 : d3 < 32) :
    packAll [d0, d1, d2, d3] = decodeSpec [d0, d1, d2, d3] := by
  have hk : 5 * ([d0, d1, d2, d3] : List Nat).length / 8 = 2 := by simp
  rw [packAll_short _ (by simp), decodeSpec, hk, decodePack_eq _ _ (by
    simp only [List.mem_cons, List.mem_singleton, List.not_mem_nil, or_false]
    intro x hx; omega)]
  simp only [List.range_succ, List.range_zero, List.nil_append, List.cons_append,
    List.map_cons, List.map_nil, streamGroup_eight, streamBit, Nat.shiftRight_eq_div_pow]
  simp
  refine ⟨?_, ?_⟩ <;> omega

theorem packAll_spec_five (d0 d1 d2 d3 d4 : Nat) (h0 : d0 < 32) (h1 : d1 < 32) (h2 : d2 < 32)
    (h3 : d3 < 32) (h4 : d4 < 32) :
    packAll [d0, d1, d2, d3, d4] = decodeSpec [d0, d1, d2, d3, d4] := by
  have hk : 5 * ([d0, d1, d2, d3, d4] : List Nat).length / 8 = 3 := by simp
  rw [packAll_short _ (by simp), decodeSpec, hk, decodePack_eq _ _ (by
    simp only [List.mem_cons, List.mem_singleton, List.not_mem_nil, or_false]
    intro x hx; omega)]
  simp only [List.range_succ, List.range_zero, List.nil_append, List.cons_append,
    List.map_cons, List.map_nil, streamGroup_eight, streamBit, Nat.shiftRight_eq_div_pow]
  simp
  refine ⟨?_, ?_, ?_⟩ <;> omega

theorem packAll_spec_seven (d0 d1 d2 d3 d4 d5 d6 : Nat) (h0 : d0 < 32) (h1 : d1 < 32)
    (h2 : d2 < 32) (h3 : d3 < 32) (h4 : d4 < 32) (h5 : d5 < 32) (h6 : d6 < 32) :
    packAll [d0, d1, d2, d3, d4, d5, d6] = decodeSpec [d0, d1, d2, d3, d4, d5, d6] := by
  have hk : 5 * ([d0, d1, d2, d3, d4, d5, d6] : List Nat).length / 8 = 4 := by simp
  rw [packAll_short _ (by simp), decodeSpec, hk, decodePack_eq _ _ (by
    simp only [List.mem_cons, List.mem_singleton, List.not_mem_nil, or_false]
    intro x hx; omega)]
  simp only [List.range_succ, List.range_zero, List.nil_append, List.cons_append,
    List.map_cons, List.map_nil, streamGroup_eight, streamBit, Nat.shiftRight_eq_div_pow]
  simp
  refine ⟨?_, ?_, ?_, ?_⟩ <;> omega


theorem decodeSpec_cons (d0 d1 d2 d3 d4 d5 d6 d7 : Nat) (rest : List Nat) :
    decodeSpec (d0 :: d1 :: d2 :: d3 :: d4 :: d5 :: d6 :: d7 :: rest)
      = (List.range 5).map
          (streamGroup 5 8 (d0 :: d1 :: d2 :: d3 :: d4 :: d5 :: d6 :: d7 :: rest))
        ++ decodeSpec rest := by
  have hl : 5 * (d0 :: d1 :: d2 :: d3 :: d4 :: d5 :: d6 :: d7 :: rest).length / 8
      = 5 + 5 * rest.length / 8 := by
    simp only [List.length_cons]; omega
  unfold decodeSpec
  rw [hl, List.range_add, List.map_append, List.map_map, List.append_cancel_left_eq]
  apply List.map_congr_left
  intro i _
  rw [Function.comp_apply]
  exact streamGroup_skip_vals d0 d1 d2 d3 d4 d5 d6 d7 rest i

/-- The packing of table values is the byte stream of the values, unless the length
leaves a last quantum of 3 or 6 values. -/
theorem packAll_eq_spec : ∀ vals : List Nat, (∀ x ∈ vals, x < 32) →
    ∀ n : Nat, vals.length = n → n % 8 ≠ 3 → n % 8 ≠ 6 → packAll vals = decodeSpec vals
  | d0 :: d1 :: d2 :: d3 :: d4 :: d5 :: d6 :: d7 :: rest, hv, n, hn, h3, h6 => by
    have hr : ∀ x ∈ rest, x < 32 := fun x hx => hv x (by simp [hx])
    simp only [List.length_cons] at hn
    rw [packAll, decodeSpec_cons,
      packAll_eq_spec rest hr rest.length rfl (by omega) (by omega),
      packAll_spec_full d0 d1 d2 d3 d4 d5 d6 d7 rest (hv _ (by simp)) (hv _ (by simp))
        (hv _ (by simp)) (hv _ (by simp)) (hv _ (by simp)) (hv _ (by simp))
        (hv _ (by simp)) (hv _ (by simp))]
  | [d0, d1, d2, d3, d4, d5, d6], hv, _, _, _, _ =>
    packAll_spec_seven d0 d1 d2 d3 d4 d5 d6 (hv _ (by simp)) (hv _ (by simp))
      (hv _ (by simp)) (hv _ (by simp)) (hv _ (by simp)) (hv _ (by simp)) (hv _ (by simp))
  | [_, _, _, _, _, _], _, n, hn, _, h6 => by
    simp only [List.length_cons, List.length_nil] at hn; omega
  | [d0, d1, d2, d3, d4], hv, _, _, _, _ =>
    packAll_spec_five d0 d1 d2 d3 d4 (hv _ (by simp)) (hv _ (by simp))
      (hv _ (by simp)) (hv _ (by simp)) (hv _ (by simp))
  | [d0, d1, d2, d3], hv, _, _, _, _ =>
    packAll_spec_four d0 d1 d2 d3 (hv _ (by simp)) (hv _ (by simp))
      (hv _ (by simp)) (hv _ (by simp))
  | [_, _, _], _, n, hn, h3, _ => by
    simp only [List.length_cons, List.length_nil] at hn; omega
  | [d0, d1], hv, _, _, _, _ => packAll_spec_two d0 d1 (hv _ (by simp)) (hv _ (by simp))
  | [d0], hv, _, _, _, _ => packAll_spec_one d0 (hv _ (by simp))
  | [], _, _, _, _, _ => by simp [packAll, decodePack, decodeSpec]

theorem map_val_lt (e : Encoding) (he : Sound e) (s : List Nat)
    (hs : ∀ c ∈ s, c ∈ e.encode) : ∀ x ∈ s.map e.val, x < 32 := by
  intro x hx
  obtain ⟨c, hc, rfl⟩ := List.mem_map.mp hx
  exact (he.2.2.1 c (hs c hc)).1

theorem Decode_eq_spec (e : Encoding) (he : Sound e) (s : List Nat)
    (hs : ∀ c ∈ s, c ∈ e.encode) (h3 : s.length % 8 ≠ 3) (h6 : s.length % 8 ≠ 6) :
    Decode e s = .ok (decodeSpec (s.map e.val)) := by
  rw [Decode_symbols e he s hs,
    packAll_eq_spec _ (map_val_lt e he s hs) s.length (by simp) h3 h6]

theorem val_eq_symbolValue :
    (∀ c ∈ LowercaseAlphabet, Lower.val c = symbolValue LowercaseAlphabet c) ∧
    (∀ c ∈ UppercaseAlphabet, Upper.val c = symbolValue UppercaseAlphabet c) := by
  decide

theorem map_val_eq (e : Encoding) (alphabet : List Nat)
    (hv : ∀ c ∈ alphabet, e.val c = symbolValue alphabet c) (s : List Nat)
    (hs : ∀ c ∈ s, c ∈ alphabet) : s.map e.val = s.map (symbolValue alphabet) :=
  List.map_congr_left (fun c hc => hv c (hs c hc))

/-- C5 (amended). `Decode` is the bit stream reference on the lengths that leave no
last quantum of 3 or 6 symbols: for `Lower` and `Upper` and every string `s` of symbols
of the alphabet whose length is not 3 or 6 modulo 8, `Decode` succeeds and returns
exactly `floor(5*len(s)/8)` bytes, the first full bytes of the stream made of the 5 bit
values of the symbols, most significant bit first, the value of a symbol being its
position in the alphabet. -/
theorem decode_eq_bitstream (s : List Nat) (h3 : s.length % 8 ≠ 3) (h6 : s.length % 8 ≠ 6) :
    ((∀ c ∈ s, c ∈ LowercaseAlphabet) →
      Decode Lower s = .ok (decodeSpec (s.map (symbolValue LowercaseAlphabet))) ∧
      (decodeSpec (s.map (symbolValue LowercaseAlphabet))).length = 5 * s.length / 8) ∧
    ((∀ c ∈ s, c ∈ UppercaseAlphabet) →
      Decode Upper s = .ok (decodeSpec (s.map (symbolValue UppercaseAlphabet))) ∧
      (decodeSpec (s.map (symbolValue UppercaseAlphabet))).length = 5 * s.length / 8) := by
  constructor
  · intro hs
    rw [← map_val_eq Lower LowercaseAlphabet val_eq_symbolValue.1 s hs]
    exact ⟨Decode_eq_spec Lower Lower_sound s hs h3 h6, by simp [decodeSpec]⟩
  · intro hs
    rw [← map_val_eq Upper UppercaseAlphabet val_eq_symbolValue.2 s hs]
    exact ⟨Decode_eq_spec Upper Upper_sound s hs h3 h6, by simp [decodeSpec]⟩

theorem decode_eq_bitstream_witness :
    (bytesOf "zz01").length % 8 ≠ 3 ∧ (bytesOf "zz01").length % 8 ≠ 6 ∧
    (∀ c ∈ bytesOf "zz01", c ∈ LowercaseAlphabet) ∧
    (Decode Lower (bytesOf "zz01")
        = .ok (decodeSpec ((bytesOf "zz01").map (symbolValue LowercaseAlphabet))) ∧
      (decodeSpec ((bytesOf "zz01").map (symbolValue LowercaseAlphabet))).length
        = 5 * (bytesOf "zz01").length / 8) ∧
    decodeSpec ((bytesOf "zz01").map (symbolValue LowercaseAlphabet)) = [255, 192] ∧
    Decode Lower (bytesOf "zz01") = .ok [255, 192] :=
  ⟨by decide, by decide, by decide,
   (decode_eq_bitstream (bytesOf "zz01") (by decide) (by decide)).1 (by decide),
   by decide, by decide⟩

/-- C5 (as stated) fails: the three symbols `000` hold one full byte, and `Decode` with
`Upper` succeeds on them with no byte at all. -/
theorem decode_three_symbols_drops_byte :
    (∀ c ∈ bytesOf "000", c ∈ UppercaseAlphabet) ∧
    5 * (bytesOf "000").length / 8 = 1 ∧
    decodeSpec ((bytesOf "000").map (symbolValue UppercaseAlphabet)) = [0] ∧
    Decode Upper (bytesOf "000") = .ok [] := by
  decide

/-- C6 (amended). Trailing-bit policy: for `Lower` and `Upper` and every string `s` of
symbols of the alphabet, `Decode` succeeds, whatever the bits beyond the last full byte
are: trailing bits that are not zero are ignored, not reported. -/
theorem decode_ignores_trailing_bits (s : List Nat) :
    ((∀ c ∈ s, c ∈ LowercaseAlphabet) → ∃ out, Decode Lower s = .ok out) ∧
    ((∀ c ∈ s, c ∈ UppercaseAlphabet) → ∃ out, Decode Upper s = .ok out) :=
  ⟨fun hs => ⟨_, Decode_symbols Lower Lower_sound s hs⟩,
   fun hs => ⟨_, Decode_symbols Upper Upper_sound s hs⟩⟩

theorem decode_ignores_trailing_bits_witness :
    (∀ c ∈ bytesOf "zzz", c ∈ LowercaseAlphabet) ∧
    (∃ out, Decode Lower (bytesOf "zzz") = .ok out) ∧
    (∀ c ∈ bytesOf "ZZZ", c ∈ UppercaseAlphabet) ∧
    (∃ out, Decode Upper (bytesOf "ZZZ") = .ok out) :=
  ⟨by decide, (decode_ignores_trailing_bits (bytesOf "zzz")).1 (by decide),
   by decide, (decode_ignores_trailing_bits (bytesOf "ZZZ")).2 (by decide)⟩

/-- C6 (as stated) fails: the two symbols `01` carry the trailing bits `0 1` after
their one full byte, and `Decode` with `Upper` returns that byte without an error. -/
theorem decode_nonzero_trailing_bits_accepted :
    (∀ c ∈ bytesOf "01", c ∈ UppercaseAlphabet) ∧
    trailingBits ((bytesOf "01").map Upper.val) = [0, 1] ∧
    Decode Upper (bytesOf "01") = .ok [0] := by
  decide

theorem Encode_five (e : Encoding) (s0 s1 s2 s3 s4 : Nat) :
    Encode e [s0, s1, s2, s3, s4] = encodeFull e s0 s1 s2 s3 s4 := by
  simp [Encode, encodeFinal]

theorem byteOfInt_shift (ut : Int) :
    byteOfInt (ut >>> (32 : Nat)) = (ut % 2 ^ 40).toNat / 2 ^ 32 ∧
    byteOfInt (ut >>> (24 : Nat)) = (ut % 2 ^ 40).toNat / 2 ^ 24 % 256 ∧
    byteOfInt (ut >>> (16 : Nat)) = (ut % 2 ^ 40).toNat / 2 ^ 16 % 256 ∧
    byteOfInt (ut >>> (8 : Nat)) = (ut % 2 ^ 40).toNat / 2 ^ 8 % 256 ∧
    byteOfInt ut = (ut % 2 ^ 40).toNat % 256 := by
  simp only [byteOfInt, Int.shiftRight_eq_div_pow]
  norm_num
  refine ⟨?_, ?_, ?_, ?_, ?_⟩ <;> omega

theorem Time_eq (e : Encoding) (ut : Int) : Time e ut = Encode e (low40BigEndian ut) := by
  obtain ⟨h0, h1, h2, h3, h4⟩ := byteOfInt_shift ut
  simp only [Time, low40BigEndian, h0, h1, h2, h3, h4, Encode_five]
  simp [writeTo, encodeFull]

/-- C8. Timestamp token: for every Unix time `ut` (every integer, the negative ones and
the whole signed 64 bit range included) and every encoding `e`, `Time` returns exactly 8
symbols, and they are `e.Encode` of the five bytes holding the low 40 bits of `ut`, most
significant byte first. -/
theorem time_token (e : Encoding) (ut : Int) :
    (Time e ut).length = 8 ∧ Time e ut = Encode e (low40BigEndian ut) := by
  refine ⟨?_, Time_eq e ut⟩
  rw [Time_eq]
  simp [low40BigEndian, Encode_five, encodeFull]

/-- C10. Silent truncation to 40 bits: `Time` is a total function, and for every encoding
`e` and all Unix times `t1`, `t2` that agree modulo `2^40`, `Time e t1 = Time e t2`. -/
theorem time_truncation (e : Encoding) (t1 t2 : Int) (h : t1 % 2 ^ 40 = t2 % 2 ^ 40) :
    Time e t1 = Time e t2 := by
  rw [Time_eq, Time_eq]
  unfold low40BigEndian
  rw [h]

theorem time_truncation_witness :
    (-1 : Int) % 2 ^ 40 = (2 ^ 40 - 1 : Int) % 2 ^ 40 ∧
    Time Upper (-1) = Time Upper (2 ^ 40 - 1) :=
  ⟨by decide, time_truncation Upper (-1) (2 ^ 40 - 1) (by decide)⟩

/-- Comparing two strings of base 32 digits of the same length byte by byte is comparing
the numbers they write. -/
theorem digitsValue_lt : ∀ (l1 l2 : List Nat) (a1 a2 : Nat), l1.length = l2.length →
    (∀ x ∈ l1, x < 32) → (∀ x ∈ l2, x < 32) →
    (digitsValue a1 l1 < digitsValue a2 l2 ↔ a1 < a2 ∨ (a1 = a2 ∧ bytesLess l1 l2 = true))
  | [], [], a1, a2, _, _, _ => by simp [digitsValue, bytesLess]
  | [], _ :: _, _, _, h, _, _ => by simp at h
  | _ :: _, [], _, _, h, _, _ => by simp at h
  | d1 :: l1, d2 :: l2, a1, a2, h, h1, h2 => by
    have hd1 := h1 d1 (by simp)
    have hd2 := h2 d2 (by simp)
    have ih := digitsValue_lt l1 l2 (a1 * 32 + d1) (a2 * 32 + d2) (by simpa using h)
      (fun x hx => h1 x (by simp [hx])) (fun x hx => h2 x (by simp [hx]))
    simp only [digitsValue, List.foldl_cons] at ih ⊢
    rw [ih]
    simp only [bytesLess, Bool.or_eq_true, Bool.and_eq_true, decide_eq_true_eq, beq_iff_eq]
    constructor
    · rintro (h | ⟨h, hb⟩)
      · by_cases ha : a1 < a2
        · exact Or.inl ha
        · exact Or.inr ⟨by omega, Or.inl (by omega)⟩
      · exact Or.inr ⟨by omega, Or.inr ⟨by omega, hb⟩⟩
    · rintro (h | ⟨h, h | ⟨h', hb⟩⟩)
      · exact Or.inl (by omega)
      · exact Or.inl (by omega)
      · exact Or.inr ⟨by omega, hb⟩

set_option maxRecDepth 20000 in
theorem Lower_increasing : Increasing Lower := by
  unfold Increasing; decide

set_option maxRecDepth 20000 in
theorem Upper_increasing : Increasing Upper := by
  unfold Increasing; decide

theorem bytesLess_map_sym (e : Encoding) (he : Increasing e) :
    ∀ (l1 l2 : List Nat), (∀ x ∈ l1, x < 32) → (∀ x ∈ l2, x < 32) →
      bytesLess l1 l2 = true → bytesLess (l1.map e.sym) (l2.map e.sym) = true
  | [], [], _, _, h => by simp [bytesLess] at h
  | [], _ :: _, _, _, _ => by simp [bytesLess]
  | _ :: _, [], _, _, h => by simp [bytesLess] at h
  | d1 :: l1, d2 :: l2, h1, h2, h => by
    simp only [List.map_cons, bytesLess, Bool.or_eq_true, Bool.and_eq_true,
      decide_eq_true_eq, beq_iff_eq] at h ⊢
    rcases h with h | ⟨h, hb⟩
    · exact Or.inl (he d1 (h1 d1 (by simp)) d2 (h2 d2 (by simp)) h)
    · exact Or.inr ⟨by rw [h], bytesLess_map_sym e he l1 l2
        (fun x hx => h1 x (by simp [hx])) (fun x hx => h2 x (by simp [hx])) hb⟩

theorem low40_isBytes (ut : Int) : IsBytes (low40BigEndian ut) := by
  intro x hx
  simp only [low40BigEndian, List.mem_cons, List.mem_singleton, List.not_mem_nil,
    or_false] at hx
  have h : (ut % 2 ^ 40).toNat < 2 ^ 40 := by
    have := Int.emod_lt_of_pos ut (show (0 : Int) < 2 ^ 40 by norm_num)
    have := Int.emod_nonneg ut (show (2 ^ 40 : Int) ≠ 0 by norm_num)
    omega
  omega

theorem low40_value (t : Int) (h0 : 0 ≤ t) (h1 : t < 2 ^ 40) :
    digitsValue 0 (groups (low40BigEndian t)) = t.toNat := by
  have hn : (t % 2 ^ 40).toNat = t.toNat := by
    rw [Int.emod_eq_of_lt h0 h1]
  have hlt : t.toNat < 2 ^ 40 := by omega
  simp only [low40BigEndian, hn, groups, digitsValue, List.foldl_cons, List.foldl_nil,
    List.cons_append, List.nil_append]
  have e32 : t.toNat / 2 ^ 32 = t.toNat / 256 / 256 / 256 / 256 := by
    simp only [Nat.div_div_eq_div_mul]; norm_num
  have e24 : t.toNat / 2 ^ 24 = t.toNat / 256 / 256 / 256 := by
    simp only [Nat.div_div_eq_div_mul]; norm_num
  have e16 : t.toNat / 2 ^ 16 = t.toNat / 256 / 256 := by
    simp only [Nat.div_div_eq_div_mul]; norm_num
  have e8 : t.toNat / 2 ^ 8 = t.toNat / 256 := by norm_num
  rw [e32, e24, e16, e8]
  omega

theorem Time_less (e : Encoding) (he : Sound e) (hi : Increasing e) (t1 t2 : Int)
    (h0 : 0 ≤ t1) (h : t1 < t2) (h2 : t2 < 2 ^ 40) :
    bytesLess (Time e t1) (Time e t2) = true := by
  rw [Time_eq, Time_eq, Encode_eq_groups e he.1 _ (low40_isBytes t1),
    Encode_eq_groups e he.1 _ (low40_isBytes t2)]
  have g1 := groups_lt _ (low40_isBytes t1)
  have g2 := groups_lt _ (low40_isBytes t2)
  apply bytesLess_map_sym e hi _ _ g1 g2
  have hl : (groups (low40BigEndian t1)).length = (groups (low40BigEndian t2)).length := by
    simp [low40BigEndian, groups]
  have hv := digitsValue_lt _ _ 0 0 hl g1 g2
  rw [low40_value t1 h0 (by omega), low40_value t2 (by omega) h2] at hv
  rcases hv.mp (by omega) with h' | h'
  · omega
  · exact h'.2

/-- C9. Timestamp monotonicity: for all Unix times `t1`, `t2` with
`0 <= t1 < t2 < 2^40`, and for `Lower` and `Upper`, `Time e t1` is strictly smaller than
`Time e t2` in the byte-wise lexicographic order. -/
theorem time_monotone (t1 t2 : Int) (h0 : 0 ≤ t1) (h : t1 < t2) (h2 : t2 < 2 ^ 40) :
    bytesLess (Time Lower t1) (Time Lower t2) = true ∧
    bytesLess (Time Upper t1) (Time Upper t2) = true :=
  ⟨Time_less Lower Lower_sound Lower_increasing t1 t2 h0 h h2,
   Time_less Upper Upper_sound Upper_increasing t1 t2 h0 h h2⟩

theorem time_monotone_witness :
    (0 : Int) ≤ 1700000000 ∧ (1700000000 : Int) < 1700000001 ∧
    (1700000001 : Int) < 2 ^ 40 ∧
    bytesLess (Time Lower 1700000000) (Time Lower 1700000001) = true ∧
    bytesLess (Time Upper 1700000000) (Time Upper 1700000001) = true :=
  ⟨by decide, by decide, by decide,
   time_monotone 1700000000 1700000001 (by decide) (by decide) (by decide)⟩

/-! ## Theorems on `mod` and `Checksum` -/

theorem mod_foldl (m : Nat) (b : List Nat) :
    mod b m = b.foldl (fun rem c => (rem * 256 + c) % m) 0 := by
  unfold mod
  congr 1
  funext rem c
  simp [Nat.shiftLeft_eq]

theorem foldl_mod_eq (m : Nat) : ∀ (b : List Nat) (n : Nat),
    b.foldl (fun rem c => (rem * 256 + c) % m) (n % m)
      = (b.foldl (fun n c => n * 256 + c) n) % m
  | [], n => rfl
  | c :: b, n => by
    have hstep : (n % m * 256 + c) % m = (n * 256 + c) % m := by
      rw [Nat.add_mod, Nat.mul_mod, Nat.mod_mod, ← Nat.mul_mod, ← Nat.add_mod]
    simp only [List.foldl_cons]
    rw [hstep]
    exact foldl_mod_eq m b (n * 256 + c)

theorem mod_eq_bigEndian (b : List Nat) : mod b 37 = bigEndian b % 37 := by
  rw [mod_foldl, bigEndian, ← foldl_mod_eq 37 b 0]

/-- C11. Checksum reference: for every byte string `body` and either case,
`Checksum body uppercase` is the character at index `N mod 37` of the checksum alphabet
of that case, `N` being the integer whose big-endian base 256 digits are the bytes of
`body` (`N = 0` for the empty body); the index is also the fold
`rem = (rem*256 + c) mod 37` over the bytes, from 0. -/
theorem checksum_reference (body : List Nat) (uppercase : Bool) :
    Checksum body uppercase
      = (if uppercase then UppercaseChecksum else LowercaseChecksum).getD
          (bigEndian body % 37) 0 ∧
    mod body 37 = body.foldl (fun rem c => (rem * 256 + c) % 37) 0 ∧
    mod body 37 = bigEndian body % 37 ∧
    bigEndian [] = 0 := by
  refine ⟨?_, mod_foldl 37 body, mod_eq_bigEndian body, rfl⟩
  unfold Checksum
  rw [mod_eq_bigEndian]

theorem mod_replicate_zero (n : Nat) : mod (List.replicate n 0) 37 = 0 := by
  rw [mod_eq_bigEndian]
  have h : ∀ k, bigEndian (List.replicate k 0) = 0 := by
    intro k
    unfold bigEndian
    induction k with
    | zero => rfl
    | succ k ih => simpa [List.replicate_succ] using ih
  rw [h]

/-- C12. Checksum of a zero-valued body: `Checksum [] false` and `Checksum [0x00] false`
are the character `0`, and for every `n` and either case the checksum of `n` zero bytes
is the character `0`. -/
theorem checksum_zero_body (n : Nat) (uppercase : Bool) :
    Checksum [] false = 48 ∧ Checksum [0] false = 48 ∧
    Checksum (List.replicate n 0) uppercase = 48 := by
  refine ⟨by decide, by decide, ?_⟩
  unfold Checksum
  rw [mod_replicate_zero]
  cases uppercase <;> decide

/-! ## Theorems on `normUpper` and `AppendNormalized` -/

set_option maxRecDepth 20000 in
theorem normTable_small : ∀ c, c < 256 →
    normTable c = if normUpper c ≠ 0 then some (normUpper c) else none := by
  decide

set_option maxRecDepth 20000 in
theorem norm_strings_lt :
    (∀ x ∈ bytesOf "0Oo", x < 256) ∧ (∀ x ∈ bytesOf "1Ii", x < 256) ∧
    (∀ x ∈ bytesOf "23456789ABCDEFGHJKMNPQRSTVWXYZ*~$=U", x < 256) ∧
    (∀ x ∈ bytesOf "abcdefghjkmnpqrstvwxyzu", x < 256) ∧
    (∀ x ∈ bytesOf "23456789" ++ bytesOf "ABCDEFGHJKMNPQRSTVWXYZ" ++ bytesOf "*~$=U",
      x < 256) ∧
    (∀ x ∈ bytesOf "abcdefghjkmnpqrstvwxyz" ++ bytesOf "u", x < 256) := by
  decide

theorem normUpper_large (c : Nat) (h : 256 ≤ c) : normUpper c = 0 := by
  obtain ⟨h1, h2, h3, h4, _, _⟩ := norm_strings_lt
  unfold normUpper
  rw [if_neg (fun hc => absurd (h1 c hc) (by omega)),
    if_neg (fun hc => absurd (h2 c hc) (by omega)),
    if_neg (fun hc => absurd (h3 c hc) (by omega)),
    if_neg (fun hc => absurd (h4 c hc) (by omega))]

theorem normTable_large (c : Nat) (h : 256 ≤ c) : normTable c = none := by
  obtain ⟨h1, h2, _, _, h5, h6⟩ := norm_strings_lt
  unfold normTable
  rw [if_neg (fun hc => absurd (h1 c hc) (by omega)),
    if_neg (fun hc => absurd (h2 c hc) (by omega)),
    if_neg (fun hc => absurd (h5 c hc) (by omega)),
    if_neg (fun hc => absurd (h6 c hc) (by omega))]

/-- The table of the specification is the function `normUpper`, the value 0 standing
for a dropped byte. -/
theorem normTable_eq (c : Nat) :
    normTable c = if normUpper c ≠ 0 then some (normUpper c) else none := by
  by_cases h : c < 256
  · exact normTable_small c h
  · rw [normTable_large c (by omega), normUpper_large c (by omega)]
    rfl

theorem AppendNormalized_eq : ∀ (src dst : List Nat),
    AppendNormalized dst src = dst ++ src.filterMap normTable
  | [], dst => by simp [AppendNormalized]
  | c :: src, dst => by
    have ih := AppendNormalized_eq src
    unfold AppendNormalized at ih ⊢
    rw [List.foldl_cons, ih, List.filterMap_cons, normTable_eq c]
    by_cases h : normUpper c = 0
    · simp [h]
    · simp [h]

theorem readBytes_succ_left (mem : Nat → Nat) (a n : Nat) :
    readBytes mem a (n + 1) = mem a :: readBytes mem (a + 1) n := by
  simp only [readBytes, List.range_succ_eq_map, List.map_cons, List.map_map, Nat.add_zero]
  congr 1
  apply List.map_congr_left
  intro k _
  simp only [Function.comp_apply]
  congr 1
  omega

theorem readBytes_succ_right (mem : Nat → Nat) (a n : Nat) :
    readBytes mem a (n + 1) = readBytes mem a n ++ [mem (a + n)] := by
  simp [readBytes, List.range_succ]

theorem readBytes_update (mem : Nat → Nat) (p r a n : Nat) (h : p < a ∨ a + n ≤ p) :
    readBytes (Function.update mem p r) a n = readBytes mem a n := by
  unfold readBytes
  apply List.map_congr_left
  intro k hk
  have hk' : k < n := List.mem_range.mp hk
  have hne : a + k ≠ p := by omega
  exact Function.update_noteq hne r mem

theorem appendByte_bytes (mem : Nat → Nat) (d : Buf) (r : Nat) :
    (appendByte mem d r).2.bytes (appendByte mem d r).1 = d.bytes mem ++ [r] := by
  cases d with
  | fresh bs => rfl
  | shared s =>
    by_cases h : s.len < s.cap
    · simp only [appendByte, h, if_true, Buf.bytes, Slice.bytes, readBytes_succ_right,
        Function.update_same]
      rw [readBytes_update mem _ r s.off s.len (Or.inr (Nat.le_refl _))]
    · simp only [appendByte, h, if_false, Buf.bytes]

theorem appendByte_read (mem : Nat → Nat) (d : Buf) (r lo n : Nat)
    (h : d.clear lo (lo + 1 + n)) :
    readBytes (appendByte mem d r).1 (lo + 1) n = readBytes mem (lo + 1) n := by
  cases d with
  | fresh bs => rfl
  | shared s =>
    by_cases hc : s.len < s.cap
    · simp only [appendByte, hc, if_true]
      simp only [Buf.clear] at h
      exact readBytes_update mem _ r (lo + 1) n (by omega)
    · simp only [appendByte, hc, if_false]

theorem appendByte_clear (mem : Nat → Nat) (d : Buf) (r lo n : Nat)
    (h : d.clear lo (lo + 1 + n)) : (appendByte mem d r).2.clear (lo + 1) (lo + 1 + n) := by
  cases d with
  | fresh bs => trivial
  | shared s =>
    by_cases hc : s.len < s.cap
    · simp only [appendByte, hc, if_true, Buf.clear] at h ⊢
      omega
    · simp only [appendByte, hc, if_false, Buf.clear]

theorem clear_step (d : Buf) (lo n : Nat) (h : d.clear lo (lo + 1 + n)) :
    d.clear (lo + 1) (lo + 1 + n) := by
  cases d with
  | fresh bs => trivial
  | shared s =>
    simp only [Buf.clear] at h ⊢
    omega

/-- The loop writes the table values of the bytes it reads after the bytes of `dst`, as
long as no byte written in place is a byte of `src` still to be read. -/
theorem normLoop_bytes (soff : Nat) : ∀ (n i : Nat) (mem : Nat → Nat) (d : Buf),
    d.clear (soff + i) (soff + i + n) →
    (normLoop soff n i mem d).2.bytes (normLoop soff n i mem d).1
      = d.bytes mem ++ (readBytes mem (soff + i) n).filterMap normTable
  | 0, i, mem, d, _ => by simp [normLoop, readBytes]
  | n + 1, i, mem, d, h => by
    have h' : d.clear (soff + i) (soff + i + 1 + n) := by
      have e : soff + i + (n + 1) = soff + i + 1 + n := by omega
      rw [e] at h
      exact h
    rw [readBytes_succ_left, List.filterMap_cons, normTable_eq (mem (soff + i))]
    simp only [normLoop]
    have e : soff + (i + 1) = soff + i + 1 := by omega
    by_cases hr : normUpper (mem (soff + i)) = 0
    · simp only [hr, ne_eq, not_true_eq_false, if_false]
      have ih := normLoop_bytes soff n (i + 1) mem d
      rw [e] at ih
      exact ih (clear_step d (soff + i) n h')
    · simp only [hr, ne_eq, not_false_eq_true, if_true]
      have ih := normLoop_bytes soff n (i + 1) (appendByte mem d (normUpper (mem (soff + i)))).1
        (appendByte mem d (normUpper (mem (soff + i)))).2
      rw [e] at ih
      rw [ih (appendByte_clear mem d _ (soff + i) n h'), appendByte_bytes,
        appendByte_read mem d _ (soff + i) n h']
      simp

theorem AppendNormalizedMem_eq (mem : Nat → Nat) (dst src : Slice) (hcap : dst.len ≤ dst.cap)
    (h : dst.cap = 0 ∨ dst.off + dst.len ≤ src.off ∨ src.off + src.len ≤ dst.off + dst.len) :
    (AppendNormalizedMem mem dst src).1
      = dst.bytes mem ++ (src.bytes mem).filterMap normTable := by
  unfold AppendNormalizedMem
  by_cases hc : dst.cap = 0
  · have hl : dst.len = 0 := by omega
    simp only [hc, if_true]
    rw [normLoop_bytes src.off src.len 0 mem (Buf.fresh []) trivial]
    simp [Buf.bytes, Slice.bytes, readBytes, hl]
  · simp only [hc, if_false]
    rw [normLoop_bytes src.off src.len 0 mem (Buf.shared dst) (by
      simp only [Buf.clear]; omega)]
    simp [Buf.bytes, Slice.bytes]

/-- C13 (amended). Normalisation is a filter-and-map over the fixed table with append
semantics, as long as no byte written into the spare capacity of `dst` is a byte of `src`
still to be read: for all slices `dst` and `src` such that `dst` has capacity 0 (`nil`
included), or the first free byte of `dst` lies at or before the first byte of `src`, or
at or after the end of `src`, `AppendNormalized(dst, src)` is `dst` followed by the table
values of the bytes of `src` that have one, in order; bytes without a table value are
dropped. In particular `AppendNormalized(nil, "Io-1O")` is `"1010"`. -/
theorem append_normalized_filter_map (mem : Nat → Nat) (dst src : Slice)
    (hcap : dst.len ≤ dst.cap)
    (h : dst.cap = 0 ∨ dst.off + dst.len ≤ src.off ∨
      src.off + src.len ≤ dst.off + dst.len) :
    (AppendNormalizedMem mem dst src).1
      = dst.bytes mem ++ (src.bytes mem).filterMap normTable ∧
    (AppendNormalizedMem mem dst src).1 = AppendNormalized (dst.bytes mem) (src.bytes mem) ∧
    (∀ d s : List Nat, AppendNormalized d s = d ++ s.filterMap normTable) ∧
    AppendNormalized [] (bytesOf "Io-1O") = bytesOf "1010" := by
  have h1 := AppendNormalizedMem_eq mem dst src hcap h
  refine ⟨h1, ?_, fun d s => AppendNormalized_eq s d, by decide⟩
  rw [h1, AppendNormalized_eq]

theorem append_normalized_filter_map_witness :
    (0 : Nat) ≤ 5 ∧
    ((5 : Nat) = 0 ∨ 0 + 0 ≤ 0 ∨ 0 + 5 ≤ 0 + 0) ∧
    (AppendNormalizedMem (memOf (bytesOf "Io-1O")) ⟨0, 0, 5⟩ ⟨0, 5, 5⟩).1
      = Slice.bytes ⟨0, 0, 5⟩ (memOf (bytesOf "Io-1O"))
        ++ (Slice.bytes ⟨0, 5, 5⟩ (memOf (bytesOf "Io-1O"))).filterMap normTable ∧
    (AppendNormalizedMem (memOf (bytesOf "Io-1O")) ⟨0, 0, 5⟩ ⟨0, 5, 5⟩).1
      = AppendNormalized (Slice.bytes ⟨0, 0, 5⟩ (memOf (bytesOf "Io-1O")))
          (Slice.bytes ⟨0, 5, 5⟩ (memOf (bytesOf "Io-1O"))) ∧
    (∀ d s : List Nat, AppendNormalized d s = d ++ s.filterMap normTable) ∧
    AppendNormalized [] (bytesOf "Io-1O") = bytesOf "1010" :=
  ⟨by decide, by decide,
   append_normalized_filter_map (memOf (bytesOf "Io-1O")) ⟨0, 0, 5⟩ ⟨0, 5, 5⟩
     (by decide) (by decide)⟩

/-- C13 (as stated) fails twice. Its example: `AppendNormalized(nil, "Io-1O")` is
`"1010"`, not `"1011"`, the last byte `O` becoming `0`. And "for all `dst` and `src`":
with `buf = "ab-cd..."`, `AppendNormalized(buf[:3], buf[1:5])` writes into the bytes of
`src` that it has not read yet and returns `"ab-BBB"`, while `dst` followed by the table
values of `src` is `"ab-BCD"`. -/
theorem append_normalized_example_differs :
    (AppendNormalized [] (bytesOf "Io-1O") ≠ bytesOf "1011" ∧
      AppendNormalized [] (bytesOf "Io-1O") = bytesOf "1010") ∧
    ((AppendNormalizedMem (memOf (bytesOf "ab-cd...")) ⟨0, 3, 8⟩ ⟨1, 4, 7⟩).1
        = bytesOf "ab-BBB" ∧
      Slice.bytes ⟨0, 3, 8⟩ (memOf (bytesOf "ab-cd..."))
        ++ (Slice.bytes ⟨1, 4, 7⟩ (memOf (bytesOf "ab-cd..."))).filterMap normTable
        = bytesOf "ab-BCD") := by
  decide

set_option maxRecDepth 20000 in
theorem normTable_fixed_small : ∀ c, c < 256 →
    ∀ y ∈ normTable c, normTable y = some y ∧ y ∈ UppercaseChecksum := by
  decide

theorem normTable_fixed (c y : Nat) (h : normTable c = some y) :
    normTable y = some y ∧ y ∈ UppercaseChecksum := by
  by_cases hc : c < 256
  · exact normTable_fixed_small c hc y (by simp [h])
  · rw [normTable_large c (by omega)] at h
    cases h

theorem filterMap_normTable_idem : ∀ s : List Nat,
    (s.filterMap normTable).filterMap normTable = s.filterMap normTable
  | [] => rfl
  | c :: s => by
    rw [List.filterMap_cons]
    cases h : normTable c with
    | none => exact filterMap_normTable_idem s
    | some y =>
      simp only [List.filterMap_cons, (normTable_fixed c y h).1, filterMap_normTable_idem s]

/-- C14. Normalisation is idempotent: for every byte string `s`,
`AppendNormalized(nil, AppendNormalized(nil, s)) = AppendNormalized(nil, s)`. -/
theorem append_normalized_idempotent (s : List Nat) :
    AppendNormalized [] (AppendNormalized [] s) = AppendNormalized [] s := by
  simp only [AppendNormalized_eq, List.nil_append, filterMap_normTable_idem]

theorem uppercaseChecksum_shape : ∀ y ∈ UppercaseChecksum,
    ¬ (97 ≤ y ∧ y ≤ 122) ∧ y ≠ 73 ∧ y ≠ 76 ∧ y ≠ 79 ∧ y ≠ 0 := by
  decide

/-- C15. Normalised output is canonical upper case: for every byte string `src`, every
byte of `AppendNormalized(nil, src)` is one of the 37 characters of `UppercaseChecksum`;
no lower case letter, no `I`, `L`, `O` and no byte 0 is in the output, and the output is
not longer than `src`. -/
theorem append_normalized_canonical (src : List Nat) :
    (∀ y ∈ AppendNormalized [] src,
      y ∈ UppercaseChecksum ∧ ¬ (97 ≤ y ∧ y ≤ 122) ∧ y ≠ 73 ∧ y ≠ 76 ∧ y ≠ 79 ∧ y ≠ 0) ∧
    (AppendNormalized [] src).length ≤ src.length := by
  rw [AppendNormalized_eq, List.nil_append]
  refine ⟨?_, List.length_filterMap_le _ _⟩
  intro y hy
  obtain ⟨c, _, hc⟩ := List.mem_filterMap.mp hy
  have hm := (normTable_fixed c y hc).2
  exact ⟨hm, uppercaseChecksum_shape y hm⟩

/-- C16 (the code at the failing inputs). `normUpper` has no case for `L` or `l`: it
returns 0 for both, and `AppendNormalized` drops them instead of writing `1`; the glyphs
`I`, `i` do become `1` and `O`, `o` do become `0`. -/
theorem normalize_drops_letter_l :
    normUpper 76 = 0 ∧ normUpper 108 = 0 ∧
    AppendNormalized [] (bytesOf "l") = [] ∧ AppendNormalized [] (bytesOf "L") = [] ∧
    AppendNormalized [] (bytesOf "Ii") = bytesOf "11" ∧
    AppendNormalized [] (bytesOf "Oo") = bytesOf "00" := by
  decide

/-- C17. Alphabet tables: `LowercaseAlphabet` and `UppercaseAlphabet` have 32 pairwise
distinct characters each, none of which is `I`, `L`, `O`, `U`, `i`, `l`, `o`, `u`, and
they agree position by position up to letter case; `UppercaseChecksum` and
`LowercaseChecksum` have 37 pairwise distinct characters each, begin with the base
alphabet of their case, and end with `*`, `~`, `$`, `=` and `U` (resp. `u`) at the
positions 32 to 36. -/
theorem alphabet_tables :
    (LowercaseAlphabet.length = 32 ∧ LowercaseAlphabet.Nodup) ∧
    (UppercaseAlphabet.length = 32 ∧ UppercaseAlphabet.Nodup) ∧
    (∀ c ∈ bytesOf "ILOUilou", c ∉ LowercaseAlphabet ∧ c ∉ UppercaseAlphabet) ∧
    LowercaseAlphabet.map upperCase = UppercaseAlphabet ∧
    (UppercaseChecksum.length = 37 ∧ UppercaseChecksum.Nodup) ∧
    (LowercaseChecksum.length = 37 ∧ LowercaseChecksum.Nodup) ∧
    UppercaseChecksum.take 32 = UppercaseAlphabet ∧
    LowercaseChecksum.take 32 = LowercaseAlphabet ∧
    UppercaseChecksum.drop 32 = bytesOf "*~$=U" ∧
    LowercaseChecksum.drop 32 = bytesOf "*~$=u" := by
  decide

theorem mod_lt (b : List Nat) : mod b 37 < 37 := by
  rw [mod_eq_bigEndian]
  exact Nat.mod_lt _ (by decide)

theorem mod_snoc (m : Nat) (pre : List Nat) (c : Nat) :
    mod (pre ++ [c]) m = modWide (mod pre m) c % m := by
  simp [mod, modWide]

/-- C18. Checksum never panics: for every byte string `body`, after every step the
running remainder of `mod(body, 37)` is in `0..36`, the value `rem*256 + c` computed by
the step is at most `36*256 + 255` (far below the range of `int`, so nothing overflows),
and the index `mod(body, 37)` is within the 37 characters of both checksum alphabets. -/
theorem checksum_in_range (body : List Nat) (hb : IsBytes body) :
    (∀ pre c post, body = pre ++ c :: post →
      mod pre 37 ≤ 36 ∧ modWide (mod pre 37) c ≤ 36 * 256 + 255 ∧
      modWide (mod pre 37) c < 2 ^ 31 ∧
      mod (pre ++ [c]) 37 = modWide (mod pre 37) c % 37 ∧ mod (pre ++ [c]) 37 ≤ 36) ∧
    mod body 37 ≤ 36 ∧
    mod body 37 < UppercaseChecksum.length ∧ mod body 37 < LowercaseChecksum.length := by
  have hlen : UppercaseChecksum.length = 37 ∧ LowercaseChecksum.length = 37 := by decide
  have hm := mod_lt body
  refine ⟨?_, by omega, by omega, by omega⟩
  intro pre c post hbody
  have hc : c < 256 := hb c (by rw [hbody]; simp)
  have hp := mod_lt pre
  have hs := mod_lt (pre ++ [c])
  have hw : modWide (mod pre 37) c = mod pre 37 * 256 + c := by
    simp [modWide, Nat.shiftLeft_eq]
  refine ⟨by omega, by omega, by omega, mod_snoc 37 pre c, by omega⟩

theorem checksum_in_range_witness :
    IsBytes [255, 255, 7] ∧
    (∀ pre c post, [255, 255, 7] = pre ++ c :: post →
      mod pre 37 ≤ 36 ∧ modWide (mod pre 37) c ≤ 36 * 256 + 255 ∧
      modWide (mod pre 37) c < 2 ^ 31 ∧
      mod (pre ++ [c]) 37 = modWide (mod pre 37) c % 37 ∧ mod (pre ++ [c]) 37 ≤ 36) ∧
    mod [255, 255, 7] 37 ≤ 36 ∧
    mod [255, 255, 7] 37 < UppercaseChecksum.length ∧
    mod [255, 255, 7] 37 < LowercaseChecksum.length :=
  ⟨by decide, checksum_in_range [255, 255, 7] (by decide)⟩

theorem normTable_symbols :
    (∀ i, i < 32 → normTable (Lower.sym i) = some (Upper.sym i)) ∧
    (∀ i, i < 32 → normTable (Upper.sym i) = some (Upper.sym i)) ∧
    (∀ r, r < 37 →
      normTable (LowercaseChecksum.getD r 0) = some (UppercaseChecksum.getD r 0)) := by
  decide

theorem filterMap_map_sym (e : Encoding)
    (he : ∀ i, i < 32 → normTable (e.sym i) = some (Upper.sym i)) :
    ∀ g : List Nat, (∀ x ∈ g, x < 32) →
      (g.map e.sym).filterMap normTable = g.map Upper.sym
  | [], _ => rfl
  | x :: g, hg => by
    rw [List.map_cons, List.filterMap_cons, he x (hg x (by simp)), List.map_cons,
      filterMap_map_sym e he g (fun y hy => hg y (by simp [hy]))]

theorem normalized_encode (e : Encoding) (hp : e.padChar = NoPadding)
    (he : ∀ i, i < 32 → normTable (e.sym i) = some (Upper.sym i))
    (b : List Nat) (hb : IsBytes b) :
    AppendNormalized [] (Encode e b) = Encode Upper b := by
  rw [AppendNormalized_eq, List.nil_append, Encode_eq_groups e hp b hb,
    Encode_eq_groups Upper rfl b hb, filterMap_map_sym e he _ (groups_lt b hb)]

/-- C19. Normalisation maps lower case encoded text to upper case encoded text and
leaves upper case encoded text unchanged: for every byte string `b`,
`AppendNormalized(nil, Lower.Encode(b)) = Upper.Encode(b)` and
`AppendNormalized(nil, Upper.Encode(b)) = Upper.Encode(b)`, hence `Upper.Decode` of the
normalised lower case text returns `b`; and the normalised lower case checksum character
of `b` is its upper case checksum character. -/
theorem normalize_encoded_text (b : List Nat) (hb : IsBytes b) :
    AppendNormalized [] (Encode Lower b) = Encode Upper b ∧
    AppendNormalized [] (Encode Upper b) = Encode Upper b ∧
    Decode Upper (AppendNormalized [] (Encode Lower b)) = .ok b ∧
    AppendNormalized [] [Checksum b false] = [Checksum b true] := by
  have hl := normalized_encode Lower rfl normTable_symbols.1 b hb
  refine ⟨hl, normalized_encode Upper rfl normTable_symbols.2.1 b hb, ?_, ?_⟩
  · rw [hl]
    exact roundtrip_sound Upper Upper_sound b hb
  · rw [AppendNormalized_eq, List.nil_append]
    simp only [Checksum, Bool.false_eq_true, if_false, if_true, List.filterMap_cons,
      List.filterMap_nil, normTable_symbols.2.2 _ (mod_lt b)]

theorem normalize_encoded_text_witness :
    IsBytes [102, 111, 111, 98, 97, 114, 255] ∧
    AppendNormalized [] (Encode Lower [102, 111, 111, 98, 97, 114, 255])
      = Encode Upper [102, 111, 111, 98, 97, 114, 255] ∧
    AppendNormalized [] (Encode Upper [102, 111, 111, 98, 97, 114, 255])
      = Encode Upper [102, 111, 111, 98, 97, 114, 255] ∧
    Decode Upper (AppendNormalized [] (Encode Lower [102, 111, 111, 98, 97, 114, 255]))
      = .ok [102, 111, 111, 98, 97, 114, 255] ∧
    AppendNormalized [] [Checksum [102, 111, 111, 98, 97, 114, 255] false]
      = [Checksum [102, 111, 111, 98, 97, 114, 255] true] :=
  ⟨by decide, normalize_encoded_text [102, 111, 111, 98, 97, 114, 255] (by decide)⟩

/-! ## `Encode` and the byte-wise order -/

theorem padTo_length (L : Nat) (z : List Nat) (h : z.length ≤ L) :
    (padTo L z).length = L := by
  simp [padTo]; omega

theorem padTo_cons (L a : Nat) (z : List Nat) :
    padTo (L + 1) (a :: z) = a :: padTo L z := by
  simp [padTo]

theorem bytesLess_zeros_right : ∀ z : List Nat,
    bytesLess z (List.replicate z.length 0) = false
  | [] => rfl
  | a :: z => by
    simp [List.replicate_succ, bytesLess, bytesLess_zeros_right z]

theorem bytesLess_zeros_left : ∀ z : List Nat,
    z = List.replicate z.length 0 ∨ bytesLess (List.replicate z.length 0) z = true
  | [] => Or.inl rfl
  | a :: z => by
    simp only [List.length_cons, List.replicate_succ, bytesLess, List.cons.injEq,
      Bool.or_eq_true, Bool.and_eq_true, decide_eq_true_eq, beq_iff_eq]
    rcases bytesLess_zeros_left z with h | h
    · by_cases ha : a = 0
      · exact Or.inl ⟨ha, h⟩
      · exact Or.inr (Or.inl (by omega))
    · by_cases ha : a = 0
      · exact Or.inr (Or.inr ⟨ha.symm, h⟩)
      · exact Or.inr (Or.inl (by omega))

/-- Comparing two strings is comparing them once both are filled with zeros to a common
length, the shorter string first when the filled strings are equal. -/
theorem bytesLess_padTo : ∀ (x y : List Nat) (L : Nat), x.length ≤ L → y.length ≤ L →
    (bytesLess x y = true ↔
      bytesLess (padTo L x) (padTo L y) = true ∨
      (padTo L x = padTo L y ∧ x.length < y.length))
  | [], [], L, _, _ => by
    have h := bytesLess_zeros_right (List.replicate L 0)
    simp only [List.length_replicate] at h
    simp [padTo, bytesLess, h]
  | [], b :: ys, L, _, hy => by
    have hl := padTo_length L (b :: ys) hy
    have h := bytesLess_zeros_left (padTo L (b :: ys))
    rw [hl] at h
    have hx : padTo L [] = List.replicate L 0 := by simp [padTo]
    rw [hx]
    simp only [bytesLess, true_iff]
    rcases h with h | h
    · exact Or.inr ⟨h.symm, by simp⟩
    · exact Or.inl h
  | a :: xs, [], L, hx, _ => by
    have hl := padTo_length L (a :: xs) hx
    have h := bytesLess_zeros_right (padTo L (a :: xs))
    rw [hl] at h
    have hy : padTo L [] = List.replicate L 0 := by simp [padTo]
    rw [hy, h]
    simp [bytesLess]
  | a :: xs, b :: ys, 0, hx, _ => by simp at hx
  | a :: xs, b :: ys, L + 1, hx, hy => by
    have ih := bytesLess_padTo xs ys L (by simpa using hx) (by simpa using hy)
    rw [padTo_cons, padTo_cons]
    simp only [bytesLess, Bool.or_eq_true, Bool.and_eq_true, decide_eq_true_eq, beq_iff_eq,
      List.cons.injEq, List.length_cons, ih]
    constructor
    · rintro (h | ⟨h, h1 | h2⟩)
      · exact Or.inl (Or.inl h)
      · exact Or.inl (Or.inr ⟨h, h1⟩)
      · exact Or.inr ⟨⟨h, h2.1⟩, by omega⟩
    · rintro ((h | ⟨h, h1⟩) | ⟨⟨h, h2⟩, h3⟩)
      · exact Or.inl h
      · exact Or.inr ⟨h, Or.inl h1⟩
      · exact Or.inr ⟨h, Or.inr ⟨h2, by omega⟩⟩

theorem bytesLess_append : ∀ (A B ra rb : List Nat), A.length = B.length →
    (bytesLess (A ++ ra) (B ++ rb) = true ↔
      bytesLess A B = true ∨ (A = B ∧ bytesLess ra rb = true))
  | [], [], ra, rb, _ => by simp [bytesLess]
  | [], _ :: _, _, _, h => by simp at h
  | _ :: _, [], _, _, h => by simp at h
  | a :: A, b :: B, ra, rb, h => by
    have ih := bytesLess_append A B ra rb (by simpa using h)
    simp only [List.cons_append, bytesLess, List.append_eq, Bool.or_eq_true,
      Bool.and_eq_true, decide_eq_true_eq, beq_iff_eq, List.cons.injEq, ih]
    constructor
    · rintro (h | ⟨h, h1 | h2⟩)
      · exact Or.inl (Or.inl h)
      · exact Or.inl (Or.inr ⟨h, h1⟩)
      · exact Or.inr ⟨⟨h, h2.1⟩, h2.2⟩
    · rintro ((h | ⟨h, h1⟩) | ⟨⟨h, h2⟩, h3⟩)
      · exact Or.inl h
      · exact Or.inr ⟨h, Or.inl h1⟩
      · exact Or.inr ⟨h, Or.inr ⟨h2, h3⟩⟩

theorem quantum_value (s0 s1 s2 s3 s4 : Nat) (h0 : s0 < 256) (h1 : s1 < 256)
    (h2 : s2 < 256) (h3 : s3 < 256) (h4 : s4 < 256) :
    digitsValue 0 (groups [s0, s1, s2, s3, s4])
      = s0 * 4294967296 + s1 * 16777216 + s2 * 65536 + s3 * 256 + s4 := by
  simp only [groups, digitsValue, List.foldl_cons, List.foldl_nil, List.cons_append,
    List.nil_append, List.append_nil]
  omega

theorem groups_five (s0 s1 s2 s3 s4 : Nat) (rest : List Nat) :
    groups (s0 :: s1 :: s2 :: s3 :: s4 :: rest)
      = groups [s0, s1, s2, s3, s4] ++ groups rest := by
  simp [groups]

/-- One quantum: five bytes in order give eight groups in order. -/
theorem quantum_less (a0 a1 a2 a3 a4 b0 b1 b2 b3 b4 : Nat)
    (ha : IsBytes [a0, a1, a2, a3, a4]) (hb : IsBytes [b0, b1, b2, b3, b4])
    (h : bytesLess [a0, a1, a2, a3, a4] [b0, b1, b2, b3, b4] = true) :
    bytesLess (groups [a0, a1, a2, a3, a4]) (groups [b0, b1, b2, b3, b4]) = true := by
  have ga := groups_lt _ ha
  have gb := groups_lt _ hb
  have hl : (groups [a0, a1, a2, a3, a4]).length
      = (groups [b0, b1, b2, b3, b4]).length := by
    simp [groups]
  have hv := digitsValue_lt _ _ 0 0 hl ga gb
  have e0 := ha a0 (by simp)
  have e1 := ha a1 (by simp)
  have e2 := ha a2 (by simp)
  have e3 := ha a3 (by simp)
  have e4 := ha a4 (by simp)
  have f0 := hb b0 (by simp)
  have f1 := hb b1 (by simp)
  have f2 := hb b2 (by simp)
  have f3 := hb b3 (by simp)
  have f4 := hb b4 (by simp)
  rw [quantum_value a0 a1 a2 a3 a4 e0 e1 e2 e3 e4,
    quantum_value b0 b1 b2 b3 b4 f0 f1 f2 f3 f4] at hv
  simp only [bytesLess, Bool.or_eq_true, Bool.and_eq_true, decide_eq_true_eq, beq_iff_eq,
    Bool.or_false, Bool.and_false, or_false, and_false] at h
  rcases hv.mp (by omega) with h' | h'
  · omega
  · exact h'.2

theorem five_split (q : Nat) : ∀ a : List Nat, a.length = 5 * (q + 1) →
    ∃ a0 a1 a2 a3 a4 ra, a = a0 :: a1 :: a2 :: a3 :: a4 :: ra ∧ ra.length = 5 * q
  | a0 :: a1 :: a2 :: a3 :: a4 :: ra, h =>
    ⟨a0, a1, a2, a3, a4, ra, rfl, by simp only [List.length_cons] at h; omega⟩
  | [_, _, _, _], h => by simp only [List.length_cons, List.length_nil] at h; omega
  | [_, _, _], h => by simp only [List.length_cons, List.length_nil] at h; omega
  | [_, _], h => by simp only [List.length_cons, List.length_nil] at h; omega
  | [_], h => by simp only [List.length_cons, List.length_nil] at h; omega
  | [], h => by simp only [List.length_nil] at h; omega

/-- Strings of whole quanta of the same length: byte order gives group order. -/
theorem groups_less_full : ∀ (q : Nat) (a b : List Nat), a.length = 5 * q →
    b.length = 5 * q → IsBytes a → IsBytes b → bytesLess a b = true →
    bytesLess (groups a) (groups b) = true
  | 0, a, b, hla, hlb, _, _, h => by
    have ea : a = [] := List.length_eq_zero.mp (by omega)
    have eb : b = [] := List.length_eq_zero.mp (by omega)
    subst ea eb
    simp [bytesLess] at h
  | q + 1, a, b, hla, hlb, ha, hb, h => by
    obtain ⟨a0, a1, a2, a3, a4, ra, rfl, hra⟩ := five_split q a hla
    obtain ⟨b0, b1, b2, b3, b4, rb, rfl, hrb⟩ := five_split q b hlb
    have hA : IsBytes [a0, a1, a2, a3, a4] := fun x hx => ha x (by
      simp only [List.mem_cons, List.mem_singleton, List.not_mem_nil, or_false] at hx ⊢
      tauto)
    have hB : IsBytes [b0, b1, b2, b3, b4] := fun x hx => hb x (by
      simp only [List.mem_cons, List.mem_singleton, List.not_mem_nil, or_false] at hx ⊢
      tauto)
    have hRa : IsBytes ra := fun x hx => ha x (by simp [hx])
    have hRb : IsBytes rb := fun x hx => hb x (by simp [hx])
    have h' := (bytesLess_append [a0, a1, a2, a3, a4] [b0, b1, b2, b3, b4] ra rb rfl).mp h
    rw [groups_five, groups_five]
    apply (bytesLess_append (groups [a0, a1, a2, a3, a4]) (groups [b0, b1, b2, b3, b4])
      (groups ra) (groups rb) (by simp [groups])).mpr
    rcases h' with h1 | ⟨h1, h2⟩
    · exact Or.inl (quantum_less _ _ _ _ _ _ _ _ _ _ hA hB h1)
    · exact Or.inr ⟨by rw [h1], groups_less_full q ra rb hra hrb hRa hRb h2⟩

theorem padTo_nil (L : Nat) : padTo L [] = List.replicate L 0 := by simp [padTo]

theorem padTo_append_left (n : Nat) (A z : List Nat) :
    padTo (n + A.length) (A ++ z) = A ++ padTo n z := by
  have h : n + A.length - (A ++ z).length = n - z.length := by
    simp only [List.length_append]; omega
  simp only [padTo, h, List.append_assoc]

theorem zeros_five (n : Nat) :
    List.replicate (5 * (n + 1)) 0 = 0 :: 0 :: 0 :: 0 :: 0 :: List.replicate (5 * n) 0 := by
  have h : 5 * (n + 1) = 5 * n + 1 + 1 + 1 + 1 + 1 := by omega
  rw [h]
  simp only [List.replicate_succ]

theorem groups_zeros : ∀ n : Nat,
    groups (List.replicate (5 * n) 0) = List.replicate (8 * n) 0
  | 0 => rfl
  | n + 1 => by
    have h : 8 * (n + 1) = 8 * n + 1 + 1 + 1 + 1 + 1 + 1 + 1 + 1 := by omega
    rw [zeros_five, groups_five, groups_zeros n, h]
    simp [groups, List.replicate_succ]

/-- Filling a byte string with zero bytes to `q` whole quanta fills its groups with zero
groups to `8*q` groups. -/
theorem groups_padTo : ∀ (q : Nat) (a : List Nat), a.length ≤ 5 * q →
    groups (padTo (5 * q) a) = padTo (8 * q) (groups a)
  | 0, a, h => by
    have ea : a = [] := List.length_eq_zero.mp (by omega)
    subst ea
    rfl
  | q + 1, a0 :: a1 :: a2 :: a3 :: a4 :: ra, h => by
    have hr : ra.length ≤ 5 * q := by simp only [List.length_cons] at h; omega
    have e1 : padTo (5 * (q + 1)) (a0 :: a1 :: a2 :: a3 :: a4 :: ra)
        = a0 :: a1 :: a2 :: a3 :: a4 :: padTo (5 * q) ra :=
      padTo_append_left (5 * q) [a0, a1, a2, a3, a4] ra
    have e2 : padTo (8 * (q + 1)) (groups [a0, a1, a2, a3, a4] ++ groups ra)
        = groups [a0, a1, a2, a3, a4] ++ padTo (8 * q) (groups ra) :=
      padTo_append_left (8 * q) (groups [a0, a1, a2, a3, a4]) (groups ra)
    rw [e1, groups_five a0 a1 a2 a3 a4 (padTo (5 * q) ra),
      groups_five a0 a1 a2 a3 a4 ra, e2, groups_padTo q ra hr]
  | q + 1, [s0, s1, s2, s3], _ => by
    have e1 : padTo (5 * (q + 1)) [s0, s1, s2, s3]
        = [s0, s1, s2, s3] ++ (0 :: List.replicate (5 * q) 0) := by
      have hk : 5 * (q + 1) - ([s0, s1, s2, s3] : List Nat).length = 5 * q + 1 := by
        simp only [List.length_cons, List.length_nil]; omega
      simp only [padTo, hk, List.replicate_succ]
    have e2 : padTo (8 * (q + 1)) (groups [s0, s1, s2, s3])
        = groups [s0, s1, s2, s3] ++ List.replicate (8 * q + 1) 0 := by
      have hk : 8 * (q + 1) - (groups [s0, s1, s2, s3]).length = 8 * q + 1 := by
        simp only [groups, List.length_cons, List.length_nil]; omega
      simp only [padTo, hk]
    rw [e1, e2]
    simp only [List.cons_append, List.nil_append]
    rw [groups_five, groups_zeros]
    simp [groups, List.replicate_succ]
  | q + 1, [s0, s1, s2], _ => by
    have e1 : padTo (5 * (q + 1)) [s0, s1, s2]
        = [s0, s1, s2] ++ (0 :: 0 :: List.replicate (5 * q) 0) := by
      have hk : 5 * (q + 1) - ([s0, s1, s2] : List Nat).length = 5 * q + 2 := by
        simp only [List.length_cons, List.length_nil]; omega
      simp only [padTo, hk, List.replicate_succ]
    have e2 : padTo (8 * (q + 1)) (groups [s0, s1, s2])
        = groups [s0, s1, s2] ++ List.replicate (8 * q + 3) 0 := by
      have hk : 8 * (q + 1) - (groups [s0, s1, s2]).length = 8 * q + 3 := by
        simp only [groups, List.length_cons, List.length_nil]; omega
      simp only [padTo, hk]
    rw [e1, e2]
    simp only [List.cons_append, List.nil_append]
    rw [groups_five, groups_zeros]
    simp [groups, List.replicate_succ]
  | q + 1, [s0, s1], _ => by
    have e1 : padTo (5 * (q + 1)) [s0, s1]
        = [s0, s1] ++ (0 :: 0 :: 0 :: List.replicate (5 * q) 0) := by
      have hk : 5 * (q + 1) - ([s0, s1] : List Nat).length = 5 * q + 3 := by
        simp only [List.length_cons, List.length_nil]; omega
      simp only [padTo, hk, List.replicate_succ]
    have e2 : padTo (8 * (q + 1)) (groups [s0, s1])
        = groups [s0, s1] ++ List.replicate (8 * q + 4) 0 := by
      have hk : 8 * (q + 1) - (groups [s0, s1]).length = 8 * q + 4 := by
        simp only [groups, List.length_cons, List.length_nil]; omega
      simp only [padTo, hk]
    rw [e1, e2]
    simp only [List.cons_append, List.nil_append]
    rw [groups_five, groups_zeros]
    simp [groups, List.replicate_succ]
  | q + 1, [s0], _ => by
    have e1 : padTo (5 * (q + 1)) [s0]
        = [s0] ++ (0 :: 0 :: 0 :: 0 :: List.replicate (5 * q) 0) := by
      have hk : 5 * (q + 1) - ([s0] : List Nat).length = 5 * q + 4 := by
        simp only [List.length_cons, List.length_nil]; omega
      simp only [padTo, hk, List.replicate_succ]
    have e2 : padTo (8 * (q + 1)) (groups [s0])
        = groups [s0] ++ List.replicate (8 * q + 6) 0 := by
      have hk : 8 * (q + 1) - (groups [s0]).length = 8 * q + 6 := by
        simp only [groups, List.length_cons, List.length_nil]; omega
      simp only [padTo, hk]
    rw [e1, e2]
    simp only [List.cons_append, List.nil_append]
    rw [groups_five, groups_zeros]
    simp [groups, List.replicate_succ]
  | q + 1, [], _ => by
    rw [padTo_nil, groups_zeros]
    simp [groups, padTo]

theorem groups_length (b : List Nat) (hb : IsBytes b) :
    (groups b).length = (8 * b.length + 4) / 5 := by
  rw [groups_eq_spec b hb]
  simp

/-- Byte order gives group order, for byte strings of any lengths. -/
theorem groups_less (a b : List Nat) (ha : IsBytes a) (hb : IsBytes b)
    (h : bytesLess a b = true) : bytesLess (groups a) (groups b) = true := by
  have hla := groups_length a ha
  have hlb := groups_length b hb
  have hqa : a.length ≤ 5 * (a.length + b.length) := by omega
  have hqb : b.length ≤ 5 * (a.length + b.length) := by omega
  have zeros : ∀ n, IsBytes (List.replicate n 0) := by
    intro n x hx
    rw [List.eq_of_mem_replicate hx]
    decide
  have hpa : IsBytes (padTo (5 * (a.length + b.length)) a) := by
    intro x hx
    rcases List.mem_append.mp hx with h1 | h1
    · exact ha x h1
    · exact zeros _ x h1
  have hpb : IsBytes (padTo (5 * (a.length + b.length)) b) := by
    intro x hx
    rcases List.mem_append.mp hx with h1 | h1
    · exact hb x h1
    · exact zeros _ x h1
  apply (bytesLess_padTo (groups a) (groups b) (8 * (a.length + b.length))
    (by omega) (by omega)).mpr
  rw [← groups_padTo _ a hqa, ← groups_padTo _ b hqb]
  rcases (bytesLess_padTo a b (5 * (a.length + b.length)) hqa hqb).mp h with h1 | ⟨h1, h2⟩
  · exact Or.inl (groups_less_full (a.length + b.length) _ _ (padTo_length _ a hqa)
      (padTo_length _ b hqb) hpa hpb h1)
  · exact Or.inr ⟨by rw [h1], by omega⟩

theorem Encode_less (e : Encoding) (he : Sound e) (hi : Increasing e) (a b : List Nat)
    (ha : IsBytes a) (hb : IsBytes b) (h : bytesLess a b = true) :
    bytesLess (Encode e a) (Encode e b) = true := by
  rw [Encode_eq_groups e he.1 a ha, Encode_eq_groups e he.1 b hb]
  exact bytesLess_map_sym e hi _ _ (groups_lt a ha) (groups_lt b hb)
    (groups_less a b ha hb h)

/-- C20. `Encode` preserves the strict byte-wise lexicographic order of arbitrary byte
strings: for all byte strings `a` and `b`, of equal or different lengths, with `a`
strictly smaller than `b` (a proper initial segment counting as smaller), and for `Lower`
and `Upper`, `Encode a` is strictly smaller than `Encode b`; both alphabets list their 32
symbols in strictly increasing byte value. -/
theorem encode_order_preserving (a b : List Nat) (ha : IsBytes a) (hb : IsBytes b)
    (h : bytesLess a b = true) :
    bytesLess (Encode Lower a) (Encode Lower b) = true ∧
    bytesLess (Encode Upper a) (Encode Upper b) = true ∧
    Increasing Lower ∧ Increasing Upper :=
  ⟨Encode_less Lower Lower_sound Lower_increasing a b ha hb h,
   Encode_less Upper Upper_sound Upper_increasing a b ha hb h,
   Lower_increasing, Upper_increasing⟩

theorem encode_order_preserving_witness :
    IsBytes [1, 255] ∧ IsBytes [1, 255, 0, 7, 9, 200] ∧
    bytesLess [1, 255] [1, 255, 0, 7, 9, 200] = true ∧
    bytesLess (Encode Lower [1, 255]) (Encode Lower [1, 255, 0, 7, 9, 200]) = true ∧
    bytesLess (Encode Upper [1, 255]) (Encode Upper [1, 255, 0, 7, 9, 200]) = true ∧
    Increasing Lower ∧ Increasing Upper :=
  ⟨by decide, by decide, by decide,
   encode_order_preserving [1, 255] [1, 255, 0, 7, 9, 200] (by decide) (by decide)
     (by decide)⟩

end Crockford
